import Mathlib

open scoped Classical

/-!
Verification of the numerical core of `molecular_cross_validation/util.py`.

The python source operates elementwise on numpy float arrays.  We embed the
scalar computations over `ℝ` (elementwise semantics), with the following
conventions, stated once here and referenced at each definition:

* numpy float arithmetic is modelled by exact real arithmetic;
* a numpy NaN (e.g. `0.0/0.0`, or `np.sqrt` of a negative number) is modelled
  by `Option ℝ` with `none` for NaN where the code can actually produce one;
* `assert` failures (the code's only error channel) are modelled by an
  `Option` result, `none` meaning the assertion raised;
* `np.random.RandomState.binomial` is modelled by an abstract draw function
  together with the two properties of the binomial distribution the source
  relies on: a draw from `Binomial(n, p)` lies in `[0, n]`, and for `p = 1`
  it equals `n` (with probability 1).
-/

/-- The cached coefficients `taylor_factors[k-1] = k! / sqrt(k)` (util.py line 14). -/
noncomputable def taylor_factors (k : ℕ) : ℝ :=
  (Nat.factorial k) / Real.sqrt k

/-- `taylor_expand(x) = exp(-x) * sum_{k=1}^{59} x**k / taylor_factors[k]`
(util.py lines 17-19; `taylor_range = np.arange(1, 60)`). -/
noncomputable def taylor_expand (x : ℝ) : ℝ :=
  Real.exp (-x) * ∑ k ∈ Finset.Icc (1:ℕ) 59, x ^ k / taylor_factors k

/-- `taylor_around_mean(x) = sqrt(x) - x**(-0.5)/8 + x**(-1.5)/16 - 5*x**(-2.5)/128`
(util.py lines 22-24). -/
noncomputable def taylor_around_mean (x : ℝ) : ℝ :=
  Real.sqrt x - x ^ (-0.5 : ℝ) / 8 + x ^ (-1.5 : ℝ) / 16 - 5 * x ^ (-2.5 : ℝ) / 128

/-- `expected_sqrt` (util.py lines 27-40), elementwise: entries `≥ cutoff` get
`taylor_around_mean`, the rest get `taylor_expand(min(mean, cutoff))`. -/
noncomputable def expected_sqrt (m : ℝ) (cutoff : ℝ := 34.94) : ℝ :=
  if cutoff ≤ m then taylor_around_mean m else taylor_expand (min m cutoff)

lemma taylor_factors_pos {k : ℕ} (hk : 1 ≤ k) : 0 < taylor_factors k := by
  have h1 : (0:ℝ) < Nat.factorial k := by positivity
  have h2 : (0:ℝ) < Real.sqrt k := Real.sqrt_pos.mpr (by exact_mod_cast hk)
  exact div_pos h1 h2

lemma taylor_term_eq {k : ℕ} (hk : 1 ≤ k) (x : ℝ) :
    x ^ k / taylor_factors k = x ^ k * Real.sqrt (k:ℝ) / (Nat.factorial k : ℝ) := by
  have h2 : (0:ℝ) < Real.sqrt k := Real.sqrt_pos.mpr (by exact_mod_cast hk)
  have h1 : (0:ℝ) < Nat.factorial k := by positivity
  rw [taylor_factors]
  field_simp

lemma taylor_expand_eq (x : ℝ) :
    taylor_expand x =
      Real.exp (-x) *
        ∑ k ∈ Finset.Icc (1:ℕ) 59, x ^ k * Real.sqrt (k:ℝ) / (Nat.factorial k : ℝ) := by
  unfold taylor_expand
  congr 1
  refine Finset.sum_congr rfl ?_
  intro k hk
  exact taylor_term_eq (Finset.mem_Icc.mp hk).1 x

lemma taylor_expand_zero : taylor_expand 0 = 0 := by
  unfold taylor_expand
  rw [Finset.sum_eq_zero, mul_zero]
  intro k hk
  have hk1 : 1 ≤ k := (Finset.mem_Icc.mp hk).1
  rw [zero_pow (by omega), zero_div]

/-- Claim C1, amended: with the default cutoff `34.94`, `expected_sqrt` computes
elementwise: below the cutoff, `exp(-m) * Σ_{k=1}^{59} m^k * sqrt(k) / k!`
(the claim's `m^k / (k! * sqrt k)` corrected to `m^k * sqrt k / k!`); at or
above the cutoff, `sqrt m - m^(-1/2)/8 + m^(-3/2)/16 - 5*m^(-5/2)/128`; and
`expected_sqrt 0 = 0`. -/
theorem expected_sqrt_formula (m : ℝ) :
    (m < 34.94 → expected_sqrt m =
      Real.exp (-m) *
        ∑ k ∈ Finset.Icc (1:ℕ) 59, m ^ k * Real.sqrt (k:ℝ) / (Nat.factorial k : ℝ)) ∧
    (34.94 ≤ m → expected_sqrt m =
      Real.sqrt m - m ^ (-0.5 : ℝ) / 8 + m ^ (-1.5 : ℝ) / 16 - 5 * m ^ (-2.5 : ℝ) / 128) ∧
    expected_sqrt 0 = 0 := by
  refine ⟨?_, ?_, ?_⟩
  · intro hm
    rw [expected_sqrt, if_neg (by linarith), min_eq_left hm.le, taylor_expand_eq]
  · intro hm
    rw [expected_sqrt, if_pos hm, taylor_around_mean]
  · rw [expected_sqrt, if_neg (by norm_num), min_eq_left (by norm_num), taylor_expand_zero]

/-- Witness for `expected_sqrt_formula` at `m = 1`. -/
theorem expected_sqrt_formula_witness :
    expected_sqrt 1 =
      Real.exp (-1) *
        ∑ k ∈ Finset.Icc (1:ℕ) 59, (1:ℝ) ^ k * Real.sqrt (k:ℝ) / (Nat.factorial k : ℝ) :=
  (expected_sqrt_formula 1).1 (by norm_num)

/-- Claim C1, counterexample: at `m = 1` the value of `expected_sqrt` differs from
the claimed series `exp(-m) * Σ_{k=1}^{59} m^k / (k! * sqrt k)` (the code computes
`m^k * sqrt k / k!`, which is strictly larger for `k ≥ 2`). -/
theorem expected_sqrt_claimed_series_false :
    expected_sqrt 1 ≠
      Real.exp (-1) *
        ∑ k ∈ Finset.Icc (1:ℕ) 59, (1:ℝ) ^ k / ((Nat.factorial k : ℝ) * Real.sqrt (k:ℝ)) := by
  have hlow := (expected_sqrt_formula 1).1 (by norm_num)
  rw [hlow]
  have hsum : ∑ k ∈ Finset.Icc (1:ℕ) 59, (1:ℝ) ^ k / ((Nat.factorial k : ℝ) * Real.sqrt (k:ℝ)) <
      ∑ k ∈ Finset.Icc (1:ℕ) 59, (1:ℝ) ^ k * Real.sqrt (k:ℝ) / (Nat.factorial k : ℝ) := by
    refine Finset.sum_lt_sum (fun k hk => ?_) ⟨2, by norm_num, ?_⟩
    · have hk1 : 1 ≤ k := (Finset.mem_Icc.mp hk).1
      have hs : 0 < Real.sqrt (k:ℝ) := Real.sqrt_pos.mpr (by exact_mod_cast hk1)
      have hf : (0:ℝ) < (Nat.factorial k : ℝ) := by positivity
      rw [one_pow, one_mul, div_le_div_iff₀ (by positivity) hf]
      have hsq : Real.sqrt (k:ℝ) * Real.sqrt (k:ℝ) = (k:ℝ) :=
        Real.mul_self_sqrt (by positivity)
      have h1k : (1:ℝ) ≤ (k:ℝ) := by exact_mod_cast hk1
      nlinarith [hf.le, hs.le]
    · have hfac : ((Nat.factorial 2 : ℕ) : ℝ) = 2 := by norm_num [Nat.factorial]
      rw [one_pow, one_mul, hfac, div_lt_div_iff₀ (by positivity) (by norm_num)]
      push_cast
      have hs : 0 < Real.sqrt (2:ℝ) := Real.sqrt_pos.mpr (by norm_num)
      have hsq : Real.sqrt (2:ℝ) * Real.sqrt (2:ℝ) = (2:ℝ) :=
        Real.mul_self_sqrt (by norm_num)
      nlinarith [hs, hsq]
  have hexp : 0 < Real.exp (-1) := Real.exp_pos _
  intro h
  have hlt := (mul_lt_mul_left hexp).mpr hsum
  rw [h] at hlt
  exact lt_irrefl _ hlt

/-- `a = (1 - data_split) / data_split` (util.py line 125). -/
noncomputable def oc_alpha (s : ℝ) : ℝ := (1 - s) / s

/-- `p = ((1 + a) - np.sqrt((1 + a)**2 - 4*a*sample_ratio)) / (2*a)` (util.py line 127). -/
noncomputable def oc_p (s r : ℝ) : ℝ :=
  ((1 + oc_alpha s) - Real.sqrt ((1 + oc_alpha s) ^ 2 - 4 * oc_alpha s * r)) / (2 * oc_alpha s)

/-- `q = a * p` (util.py line 128). -/
noncomputable def oc_q (s r : ℝ) : ℝ := oc_alpha s * oc_p s r

/-- `overlap_correction` (util.py lines 108-136), scalar case.  `none` models the
`assert np.allclose(p + q - p*q, sample_ratio)` raising: when the discriminant is
negative, `np.sqrt` yields NaN, every comparison with NaN is false, and the
assertion raises, hence the separate `none` branch in that case.  `np.allclose`
uses `|x - y| ≤ atol + rtol*|y|` with `rtol = 1e-5`, `atol = 1e-8`. -/
noncomputable def overlap_correction (s r : ℝ) : Option (ℝ × ℝ × ℝ) :=
  if r = 0 then some (s, 1 - s, 0)
  else if (1 + oc_alpha s) ^ 2 - 4 * oc_alpha s * r < 0 then none
  else if |oc_p s r + oc_q s r - oc_p s r * oc_q s r - r| ≤ 1e-8 + 1e-5 * |r| then
    some (oc_p s r / r, oc_q s r / r, oc_p s r / r + oc_q s r / r - 1)
  else none

lemma pq_solves_quadratic {a r p : ℝ} (ha : 0 < a)
    (hd : 0 ≤ (1 + a) ^ 2 - 4 * a * r)
    (hp : p = ((1 + a) - Real.sqrt ((1 + a) ^ 2 - 4 * a * r)) / (2 * a)) :
    p + a * p - p * (a * p) = r := by
  have ht : Real.sqrt ((1 + a) ^ 2 - 4 * a * r) ^ 2 = (1 + a) ^ 2 - 4 * a * r :=
    Real.sq_sqrt hd
  have ha' : (2 * a) ≠ 0 := by positivity
  subst hp
  field_simp
  nlinarith [ht]

lemma oc_alpha_pos {s : ℝ} (hs0 : 0 < s) (hs1 : s < 1) : 0 < oc_alpha s :=
  div_pos (by linarith) hs0

lemma oc_disc_nonneg {s r : ℝ} (hs0 : 0 < s) (hs1 : s < 1) (hr1 : r ≤ 1) :
    0 ≤ (1 + oc_alpha s) ^ 2 - 4 * oc_alpha s * r := by
  have ha := oc_alpha_pos hs0 hs1
  nlinarith [sq_nonneg (1 - oc_alpha s), mul_nonneg ha.le (sub_nonneg.mpr hr1)]

lemma oc_pq_identity {s r : ℝ} (hs0 : 0 < s) (hs1 : s < 1) (hr1 : r ≤ 1) :
    oc_p s r + oc_q s r - oc_p s r * oc_q s r = r := by
  have ha := oc_alpha_pos hs0 hs1
  have hd := oc_disc_nonneg hs0 hs1 hr1
  have := pq_solves_quadratic ha hd (p := oc_p s r) rfl
  calc oc_p s r + oc_q s r - oc_p s r * oc_q s r
      = oc_p s r + oc_alpha s * oc_p s r - oc_p s r * (oc_alpha s * oc_p s r) := by
        rw [oc_q]
    _ = r := this

/-- Claim C2: for `0 < s < 1` and `0 < r ≤ 1`, `overlap_correction` returns
`(p/r, q/r, p/r + q/r - 1)` where, with `α = (1-s)/s`, `p` is the smaller
quadratic root `((1+α) - sqrt((1+α)² - 4αr))/(2α)` and `q = α·p`; moreover
`new_split * r = p`, `new_split_complement * r = q = α·p`, `p + q - p·q`
equals `r` exactly (hence within `1e-6`), and the returned overlap factor is
`new_split + new_split_complement - 1`. -/
theorem overlap_correction_spec (s r : ℝ)
    (hs0 : 0 < s) (hs1 : s < 1) (hr0 : 0 < r) (hr1 : r ≤ 1) :
    overlap_correction s r =
      some (oc_p s r / r, oc_q s r / r, oc_p s r / r + oc_q s r / r - 1) ∧
    (oc_p s r / r) * r = oc_p s r ∧
    (oc_q s r / r) * r = oc_alpha s * oc_p s r ∧
    oc_q s r = oc_alpha s * oc_p s r ∧
    oc_p s r + oc_q s r - oc_p s r * oc_q s r = r ∧
    |oc_p s r + oc_q s r - oc_p s r * oc_q s r - r| ≤ 1e-6 := by
  have hd := oc_disc_nonneg hs0 hs1 hr1
  have hkey := oc_pq_identity hs0 hs1 hr1
  have hcorr : overlap_correction s r =
      some (oc_p s r / r, oc_q s r / r, oc_p s r / r + oc_q s r / r - 1) := by
    rw [overlap_correction, if_neg hr0.ne', if_neg (not_lt.mpr hd), if_pos]
    rw [hkey]
    simp only [sub_self, abs_zero]
    positivity
  refine ⟨hcorr, ?_, ?_, rfl, hkey, ?_⟩
  · field_simp
  · rw [oc_q]
    field_simp
  · rw [hkey]
    norm_num

/-- Witness for `overlap_correction_spec` at `s = 1/2`, `r = 1/2`. -/
theorem overlap_correction_spec_witness :
    overlap_correction (1/2) (1/2) =
      some (oc_p (1/2) (1/2) / (1/2), oc_q (1/2) (1/2) / (1/2),
        oc_p (1/2) (1/2) / (1/2) + oc_q (1/2) (1/2) / (1/2) - 1) ∧
    (oc_p (1/2) (1/2) / (1/2)) * (1/2) = oc_p (1/2) (1/2) ∧
    (oc_q (1/2) (1/2) / (1/2)) * (1/2) = oc_alpha (1/2) * oc_p (1/2) (1/2) ∧
    oc_q (1/2) (1/2) = oc_alpha (1/2) * oc_p (1/2) (1/2) ∧
    oc_p (1/2) (1/2) + oc_q (1/2) (1/2) - oc_p (1/2) (1/2) * oc_q (1/2) (1/2) = 1/2 ∧
    |oc_p (1/2) (1/2) + oc_q (1/2) (1/2) - oc_p (1/2) (1/2) * oc_q (1/2) (1/2) - 1/2| ≤ 1e-6 :=
  overlap_correction_spec (1/2) (1/2) (by norm_num) (by norm_num) (by norm_num) (by norm_num)

/-- An injected random source for `split_molecules` (util.py lines 139-165): one
abstract binomial draw per call index (the code makes two vectorized calls) and
array position.  `bin c i m p` is the realized value of the `c`-th call's draw
at position `i` from `Binomial(m, p)`. -/
structure Rng (n : ℕ) where
  bin : ℕ → Fin n → ℕ → ℝ → ℕ

/-- The two facts about `np.random.RandomState.binomial` the source relies on:
a draw from `Binomial(m, p)` lies in `[0, m]`, and a draw with `p = 1` equals
`m` (an almost-sure event, holding for every realizable draw). -/
def Rng.Lawful {n : ℕ} (rng : Rng n) : Prop :=
  (∀ c i m p, rng.bin c i m p ≤ m) ∧ (∀ c i m, rng.bin c i m 1 = m)

/-- `umis_X_disjoint = random_state.binomial(umis, data_split - overlap_factor)`
(util.py line 157). -/
noncomputable def sm_X_disjoint {n : ℕ} (umis : Fin n → ℕ) (s o : ℝ) (rng : Rng n) : Fin n → ℕ :=
  fun i => rng.bin 0 i (umis i) (s - o)

/-- `umis_Y_disjoint = random_state.binomial(umis - umis_X_disjoint,
(1 - data_split) / (1 - data_split + overlap_factor))` (util.py lines 158-160). -/
noncomputable def sm_Y_disjoint {n : ℕ} (umis : Fin n → ℕ) (s o : ℝ) (rng : Rng n) : Fin n → ℕ :=
  fun i => rng.bin 1 i (umis i - sm_X_disjoint umis s o rng i) ((1 - s) / (1 - s + o))

/-- `overlap_factor = umis - umis_X_disjoint - umis_Y_disjoint` (util.py line 161),
the shared molecules counted in both outputs. -/
noncomputable def sm_shared {n : ℕ} (umis : Fin n → ℕ) (s o : ℝ) (rng : Rng n) : Fin n → ℕ :=
  fun i => umis i - sm_X_disjoint umis s o rng i - sm_Y_disjoint umis s o rng i

/-- `split_molecules` (util.py lines 139-165):
`umis_X = umis_X_disjoint + shared`, `umis_Y = umis_Y_disjoint + shared`. -/
noncomputable def split_molecules {n : ℕ} (umis : Fin n → ℕ) (s o : ℝ) (rng : Rng n) :
    (Fin n → ℕ) × (Fin n → ℕ) :=
  (fun i => sm_X_disjoint umis s o rng i + sm_shared umis s o rng i,
   fun i => sm_Y_disjoint umis s o rng i + sm_shared umis s o rng i)

lemma sm_le_umis_helper {n : ℕ} (umis : Fin n → ℕ) (s o : ℝ) (rng : Rng n)
    (hlaw : rng.Lawful) (i : Fin n) :
    (split_molecules umis s o rng).1 i ≤ umis i ∧
    (split_molecules umis s o rng).2 i ≤ umis i := by
  have hX : sm_X_disjoint umis s o rng i ≤ umis i := hlaw.1 0 i (umis i) _
  have hY : sm_Y_disjoint umis s o rng i ≤ umis i - sm_X_disjoint umis s o rng i :=
    hlaw.1 1 i _ _
  constructor <;>
    simp only [split_molecules, sm_shared] <;> omega

/-- Claim C3: for `0 < s < 1` and `overlap_factor = 0`, the second binomial's
success probability `(1-s)/(1-s+0)` is exactly `1`, hence (for any lawful draw)
the shared count is `0` and `umis_X + umis_Y = umis` elementwise. -/
theorem split_molecules_overlap_zero {n : ℕ} (umis : Fin n → ℕ) (s : ℝ) (rng : Rng n)
    (hs0 : 0 < s) (hs1 : s < 1) (hlaw : rng.Lawful) :
    (1 - s) / (1 - s + 0) = 1 ∧
    (∀ i, sm_shared umis s 0 rng i = 0) ∧
    (∀ i, (split_molecules umis s 0 rng).1 i + (split_molecules umis s 0 rng).2 i = umis i) := by
  have hprob : (1 - s) / (1 - s + 0) = 1 := by
    rw [add_zero]
    exact div_self (by linarith)
  have hshared : ∀ i, sm_shared umis s 0 rng i = 0 := by
    intro i
    have hX : sm_X_disjoint umis s 0 rng i ≤ umis i := hlaw.1 0 i (umis i) _
    have hY : sm_Y_disjoint umis s 0 rng i = umis i - sm_X_disjoint umis s 0 rng i := by
      rw [sm_Y_disjoint, hprob]
      exact hlaw.2 1 i _
    rw [sm_shared, hY]
    omega
  refine ⟨hprob, hshared, fun i => ?_⟩
  have hX : sm_X_disjoint umis s 0 rng i ≤ umis i := hlaw.1 0 i (umis i) _
  have hY : sm_Y_disjoint umis s 0 rng i = umis i - sm_X_disjoint umis s 0 rng i := by
    rw [sm_Y_disjoint, hprob]
    exact hlaw.2 1 i _
  simp only [split_molecules, hshared i, add_zero]
  omega

/-- Witness for `split_molecules_overlap_zero`: a lawful draw on a single count of 3. -/
theorem split_molecules_overlap_zero_witness :
    (split_molecules (fun _ => 3) (1/2) 0 (Rng.mk (fun _ _ m _ => m) : Rng 1)).1 0 +
    (split_molecules (fun _ => 3) (1/2) 0 (Rng.mk (fun _ _ m _ => m) : Rng 1)).2 0 = 3 :=
  (split_molecules_overlap_zero (fun _ => 3) (1/2) (Rng.mk (fun _ _ m _ => m))
    (by norm_num) (by norm_num)
    ⟨fun _ _ _ _ => le_refl _, fun _ _ _ => rfl⟩).2.2 0

/-- Claim C4, counterexample (the claim's negation): there is no count array, no
valid `data_split`/`overlap_factor` with `overlap_factor > 0`, and no lawful
draw under which an entry of `umis_X` or `umis_Y` exceeds the corresponding
entry of `umis`.  Indeed `umis_X = umis - umis_Y_disjoint` and
`umis_Y = umis - umis_X_disjoint`. -/
theorem split_molecules_exceed_umis_false :
    ¬ ∃ (n : ℕ) (umis : Fin n → ℕ) (s o : ℝ) (rng : Rng n) (i : Fin n),
        rng.Lawful ∧ 0 < s ∧ s < 1 ∧ 0 < o ∧ 0 ≤ s - o ∧
        (umis i < (split_molecules umis s o rng).1 i ∨
         umis i < (split_molecules umis s o rng).2 i) := by
  rintro ⟨n, umis, s, o, rng, i, hlaw, -, -, -, -, hbad⟩
  have h := sm_le_umis_helper umis s o rng hlaw i
  omega

/-- Claim C4, amended: for every count array, parameters, and lawful draw, the
outputs satisfy `umis_X ≤ umis` and `umis_Y ≤ umis` elementwise (what can exceed
the pool is their sum `umis_X + umis_Y`, through double-counted shared
molecules, not either output alone). -/
theorem split_molecules_le_umis {n : ℕ} (umis : Fin n → ℕ) (s o : ℝ) (rng : Rng n)
    (hlaw : rng.Lawful) (i : Fin n) :
    (split_molecules umis s o rng).1 i ≤ umis i ∧
    (split_molecules umis s o rng).2 i ≤ umis i :=
  sm_le_umis_helper umis s o rng hlaw i

/-- Witness for `split_molecules_le_umis`. -/
theorem split_molecules_le_umis_witness :
    (split_molecules (fun _ => 5) (3/5) (1/10) (Rng.mk (fun _ _ m _ => m) : Rng 1)).1 0 ≤ 5 ∧
    (split_molecules (fun _ => 5) (3/5) (1/10) (Rng.mk (fun _ _ m _ => m) : Rng 1)).2 0 ≤ 5 :=
  split_molecules_le_umis (fun _ => 5) (3/5) (1/10) (Rng.mk (fun _ _ m _ => m))
    ⟨fun _ _ _ _ => le_refl _, fun _ _ _ => rfl⟩ 0

/-- Claim C9: `split_molecules` is deterministic given its inputs and random
source: random generators in identical states (drawing identically) yield
identical output pairs. -/
theorem split_molecules_deterministic {n : ℕ} (umis : Fin n → ℕ) (s o : ℝ)
    (rng1 rng2 : Rng n) (h : ∀ c i m p, rng1.bin c i m p = rng2.bin c i m p) :
    split_molecules umis s o rng1 = split_molecules umis s o rng2 := by
  have hbin : rng1 = rng2 := by
    cases rng1
    cases rng2
    simp only [Rng.mk.injEq]
    funext c i m p
    exact h c i m p
  rw [hbin]

/-- Witness for `split_molecules_deterministic`. -/
theorem split_molecules_deterministic_witness :
    split_molecules (fun _ => 7) (1/2) 0 (Rng.mk (fun _ _ m _ => m / 2) : Rng 1) =
    split_molecules (fun _ => 7) (1/2) 0 (Rng.mk (fun _ _ m _ => m / 2) : Rng 1) :=
  split_molecules_deterministic (fun _ => 7) (1/2) 0 _ _ (fun _ _ _ _ => rfl)

/-- Claim C6, counterexample: `sample_ratio = -1` lies outside `[0,1]`, yet
`overlap_correction (1/2) (-1)` does not fail: the discriminant is positive,
the quadratic identity `p + q - p*q = r` still holds exactly, so the assertion
passes and values are returned. -/
theorem overlap_correction_accepts_negative_ratio :
    (-1 : ℝ) ∉ Set.Icc (0:ℝ) 1 ∧ overlap_correction (1/2) (-1) ≠ none := by
  constructor
  · intro h
    exact absurd h.1 (by norm_num)
  · have ha : oc_alpha (1/2) = 1 := by norm_num [oc_alpha]
    have hd : ¬((1 + oc_alpha (1/2)) ^ 2 - 4 * oc_alpha (1/2) * (-1) < 0) := by
      rw [ha]
      norm_num
    have hkey : oc_p (1/2) (-1) + oc_q (1/2) (-1) - oc_p (1/2) (-1) * oc_q (1/2) (-1) = -1 := by
      have h1 := pq_solves_quadratic (a := oc_alpha (1/2)) (r := -1)
        (p := oc_p (1/2) (-1)) (by rw [ha]; norm_num) (by rw [ha]; norm_num) rfl
      calc oc_p (1/2) (-1) + oc_q (1/2) (-1) - oc_p (1/2) (-1) * oc_q (1/2) (-1)
          = oc_p (1/2) (-1) + oc_alpha (1/2) * oc_p (1/2) (-1) -
              oc_p (1/2) (-1) * (oc_alpha (1/2) * oc_p (1/2) (-1)) := by rw [oc_q]
        _ = -1 := h1
    rw [overlap_correction, if_neg (by norm_num), if_neg hd, if_pos]
    · exact Option.some_ne_none _
    · rw [hkey]
      norm_num

/-- Claim C6, amended: for `0 < s < 1` and `sample_ratio ≠ 0`,
`overlap_correction` fails (assertion error) precisely when the discriminant
`(1+α)² - 4α·r` is negative; a `sample_ratio` outside `[0,1]` whose
discriminant is nonnegative (any `r < 0`, or `1 < r ≤ (1+α)²/(4α)`) is
accepted silently. -/
theorem overlap_correction_failure_iff (s r : ℝ) (hs0 : 0 < s) (hs1 : s < 1) (hr : r ≠ 0) :
    overlap_correction s r = none ↔ (1 + oc_alpha s) ^ 2 - 4 * oc_alpha s * r < 0 := by
  have ha := oc_alpha_pos hs0 hs1
  rw [overlap_correction, if_neg hr]
  by_cases hd : (1 + oc_alpha s) ^ 2 - 4 * oc_alpha s * r < 0
  · rw [if_pos hd]
    simp [hd]
  · rw [if_neg hd]
    have hkey : oc_p s r + oc_q s r - oc_p s r * oc_q s r = r := by
      have h1 := pq_solves_quadratic (a := oc_alpha s) (r := r)
        (p := oc_p s r) ha (not_lt.mp hd) rfl
      calc oc_p s r + oc_q s r - oc_p s r * oc_q s r
          = oc_p s r + oc_alpha s * oc_p s r -
              oc_p s r * (oc_alpha s * oc_p s r) := by rw [oc_q]
        _ = r := h1
    rw [if_pos]
    · simp [hd]
    · rw [hkey]
      simp only [sub_self, abs_zero]
      positivity

/-- Witness for `overlap_correction_failure_iff` at `s = 1/2`, `r = 2`
(discriminant `4 - 8 < 0`: the call raises). -/
theorem overlap_correction_failure_iff_witness :
    overlap_correction (1/2) 2 = none :=
  (overlap_correction_failure_iff (1/2) 2 (by norm_num) (by norm_num) (by norm_num)).mpr
    (by norm_num [oc_alpha])

/-- `overlap_correction` with an array `sample_ratio` (util.py lines 108-136).
The inner `Option ℝ` entries model per-entry NaNs from the elementwise
divisions `p / sample_ratio` on line 132-133: for a zero entry the numerator
`p` is exactly `0` (the discriminant is the perfect square `(1+a)²`), so numpy
produces `0.0/0.0 = NaN`.  The assertion (`none` overall) fires exactly when
some entry's discriminant is negative (NaN in `p`) or the elementwise
`np.allclose` tolerance check fails.  In the degenerate all-zero branch the
code returns the scalars `(data_split, 1 - data_split, 0.0)`, modelled as the
corresponding constant (broadcast) arrays. -/
noncomputable def overlap_correction_arr {n : ℕ} (s : ℝ) (r : Fin n → ℝ) :
    Option ((Fin n → Option ℝ) × (Fin n → Option ℝ) × (Fin n → Option ℝ)) :=
  if ∀ j, r j = 0 then some (fun _ => some s, fun _ => some (1 - s), fun _ => some 0)
  else if ∃ j, (1 + oc_alpha s) ^ 2 - 4 * oc_alpha s * r j < 0 then none
  else if ∀ j, |oc_p s (r j) + oc_q s (r j) - oc_p s (r j) * oc_q s (r j) - r j| ≤
      1e-8 + 1e-5 * |r j| then
    some (fun j => if r j = 0 then none else some (oc_p s (r j) / r j),
          fun j => if r j = 0 then none else some (oc_q s (r j) / r j),
          fun j => if r j = 0 then none else
            some (oc_p s (r j) / r j + oc_q s (r j) / r j - 1))
  else none

lemma oc_p_zero {s : ℝ} (hs0 : 0 < s) (hs1 : s < 1) : oc_p s 0 = 0 := by
  have ha := oc_alpha_pos hs0 hs1
  rw [oc_p]
  rw [show (1 + oc_alpha s) ^ 2 - 4 * oc_alpha s * 0 = (1 + oc_alpha s) ^ 2 by ring]
  rw [Real.sqrt_sq (by linarith)]
  simp

/-- Claim C10: calling `overlap_correction` with an array `sample_ratio` that is
zero in some but not all entries takes the general branch; the division by the
zero entries produces NaN (`none`) in `new_split`, `new_split_complement` and
the overlap factor at those positions — not the degenerate scalar result
`(data_split, 1 - data_split, 0.0)` and not an error. -/
theorem overlap_correction_arr_partial_zero (s ρ : ℝ)
    (hs0 : 0 < s) (hs1 : s < 1) (hρ0 : 0 < ρ) (hρ1 : ρ ≤ 1) :
    ∃ t, overlap_correction_arr s ![(0:ℝ), ρ] = some t ∧
      t.1 0 = none ∧ t.2.1 0 = none ∧ t.2.2 0 = none ∧ t.1 0 ≠ some s := by
  have ha := oc_alpha_pos hs0 hs1
  have hnotall : ¬ ∀ j : Fin 2, (![(0:ℝ), ρ]) j = 0 := by
    intro h
    have := h 1
    simp at this
    exact hρ0.ne' this
  have hnod : ¬ ∃ j : Fin 2, (1 + oc_alpha s) ^ 2 - 4 * oc_alpha s * (![(0:ℝ), ρ]) j < 0 := by
    rw [not_exists]
    rw [Fin.forall_fin_two]
    constructor
    · simp only [Matrix.cons_val_zero, not_lt]
      nlinarith
    · simp only [Matrix.cons_val_one, Matrix.head_cons, not_lt]
      exact oc_disc_nonneg hs0 hs1 hρ1
  have hclose : ∀ j : Fin 2,
      |oc_p s ((![(0:ℝ), ρ]) j) + oc_q s ((![(0:ℝ), ρ]) j) -
        oc_p s ((![(0:ℝ), ρ]) j) * oc_q s ((![(0:ℝ), ρ]) j) - (![(0:ℝ), ρ]) j| ≤
        1e-8 + 1e-5 * |(![(0:ℝ), ρ]) j| := by
    rw [Fin.forall_fin_two]
    constructor
    · simp only [Matrix.cons_val_zero]
      rw [oc_p_zero hs0 hs1, oc_q, oc_p_zero hs0 hs1]
      norm_num
    · simp only [Matrix.cons_val_one, Matrix.head_cons]
      rw [oc_pq_identity hs0 hs1 hρ1]
      simp only [sub_self, abs_zero]
      positivity
  have hres : overlap_correction_arr s ![(0:ℝ), ρ] = some
      (fun j => if (![(0:ℝ), ρ]) j = 0 then none else
        some (oc_p s ((![(0:ℝ), ρ]) j) / (![(0:ℝ), ρ]) j),
       fun j => if (![(0:ℝ), ρ]) j = 0 then none else
        some (oc_q s ((![(0:ℝ), ρ]) j) / (![(0:ℝ), ρ]) j),
       fun j => if (![(0:ℝ), ρ]) j = 0 then none else
        some (oc_p s ((![(0:ℝ), ρ]) j) / (![(0:ℝ), ρ]) j +
          oc_q s ((![(0:ℝ), ρ]) j) / (![(0:ℝ), ρ]) j - 1)) := by
    rw [overlap_correction_arr, if_neg hnotall, if_neg hnod, if_pos hclose]
  refine ⟨_, hres, ?_, ?_, ?_, ?_⟩
  · simp
  · simp
  · simp
  · simp

/-- Witness for `overlap_correction_arr_partial_zero` at `s = 1/2`, `ρ = 1/2`. -/
theorem overlap_correction_arr_partial_zero_witness :
    ∃ t, overlap_correction_arr (1/2) ![(0:ℝ), 1/2] = some t ∧
      t.1 0 = none ∧ t.2.1 0 = none ∧ t.2.2 0 = none ∧ t.1 0 ≠ some (1/2) :=
  overlap_correction_arr_partial_zero (1/2) (1/2)
    (by norm_num) (by norm_num) (by norm_num) (by norm_num)

/-- NaN-poisoning subtraction on `Option ℝ` (`none` models a non-finite float). -/
def osub : Option ℝ → Option ℝ → Option ℝ
  | some a, some b => some (a - b)
  | _, _ => none

/-- NaN-poisoning multiplication on `Option ℝ`. -/
def omul : Option ℝ → Option ℝ → Option ℝ
  | some a, some b => some (a * b)
  | _, _ => none

/-- NaN-poisoning division on `Option ℝ`; division by zero gives `none`.  In
`poisson_fit` a zero denominator can only occur with a zero numerator
(`0.0/0.0 = NaN` in numpy), so `none` is faithful there. -/
noncomputable def odiv : Option ℝ → Option ℝ → Option ℝ
  | some a, some b => if b = 0 then none else some (a / b)
  | _, _ => none

/-- NaN-poisoning sum of an array (numpy: a sum containing a NaN is NaN). -/
noncomputable def osum {n : ℕ} (f : Fin n → Option ℝ) : Option ℝ :=
  if h : ∀ i, (f i).isSome then some (∑ i, (f i).get (h i)) else none

/-- `scipy.stats.norm.cdf(x, loc, scale)` lifted to NaN-poisoning arguments;
the cdf itself is external to the repository and passed in abstractly. -/
def ocdf (cdf : ℝ → ℝ → ℝ → ℝ) : Option ℝ → Option ℝ → Option ℝ → Option ℝ
  | some x, some l, some sc => some (cdf x l sc)
  | _, _, _ => none

lemma osum_some {n : ℕ} (v : Fin n → ℝ) :
    osum (fun i => some (v i)) = some (∑ i, v i) := by
  rw [osum, dif_pos]
  · rfl
  · intro i
    rfl

lemma osum_none {n : ℕ} (f : Fin n → Option ℝ) (i : Fin n) (h : f i = none) :
    osum f = none := by
  rw [osum, dif_neg]
  intro hall
  have := hall i
  rw [h] at this
  exact absurd this (by simp)

/-- `pct = (umis > 0).sum(0) / n_cells` (util.py lines 90-91). -/
noncomputable def pf_pct {n g : ℕ} (umis : Fin n → Fin g → ℕ) (j : Fin g) : Option ℝ :=
  odiv (some ((Finset.univ.filter (fun i => 0 < umis i j)).card : ℝ)) (some (n : ℝ))

/-- `exp = umis.sum(0) / umis.sum()` (util.py line 92). -/
noncomputable def pf_exp {n g : ℕ} (umis : Fin n → Fin g → ℕ) (j : Fin g) : Option ℝ :=
  odiv (some (∑ i, (umis i j : ℝ))) (some (∑ i, ∑ j2, (umis i j2 : ℝ)))

/-- `numis = umis.sum(1)` (util.py line 93). -/
def pf_numis {n g : ℕ} (umis : Fin n → Fin g → ℕ) (i : Fin n) : ℝ :=
  ∑ j2, (umis i j2 : ℝ)

/-- `prob_zero[j, i] = np.exp(-(exp[j] * numis[i]))` (util.py line 95). -/
noncomputable def pf_prob_zero {n g : ℕ} (umis : Fin n → Fin g → ℕ) (j : Fin g) (i : Fin n) :
    Option ℝ :=
  (omul (pf_exp umis j) (some (pf_numis umis i))).map (fun t => Real.exp (-t))

/-- `exp_pct_nz = (1 - prob_zero).mean(1)` (util.py line 96). -/
noncomputable def pf_exp_pct_nz {n g : ℕ} (umis : Fin n → Fin g → ℕ) (j : Fin g) : Option ℝ :=
  odiv (osum (fun i => osub (some 1) (pf_prob_zero umis j i))) (some (n : ℝ))

/-- `var_pct_nz = (prob_zero * (1 - prob_zero)).mean(1) / n_cells` (util.py line 98). -/
noncomputable def pf_var_pct_nz {n g : ℕ} (umis : Fin n → Fin g → ℕ) (j : Fin g) : Option ℝ :=
  odiv (odiv (osum (fun i =>
      omul (pf_prob_zero umis j i) (osub (some 1) (pf_prob_zero umis j i))))
    (some (n : ℝ))) (some (n : ℝ))

/-- `std_pct_nz = np.sqrt(var_pct_nz)` (util.py line 99).  Whenever the argument
is finite it is a mean of terms `p·(1-p)` with `p = exp(-t) ∈ (0, 1]`, hence
nonnegative, so numpy's sqrt never sees a negative value here and the total
`Real.sqrt` is faithful. -/
noncomputable def pf_std_pct_nz {n g : ℕ} (umis : Fin n → Fin g → ℕ) (j : Fin g) : Option ℝ :=
  (pf_var_pct_nz umis j).map Real.sqrt

/-- `poisson_fit` (util.py lines 83-105): `exp_p` starts at `1.0` and entries
with `std != 0` (which is also how numpy treats a NaN std) are overwritten by
`norm.cdf(pct, loc=exp_pct_nz, scale=std_pct_nz)`. -/
noncomputable def poisson_fit (cdf : ℝ → ℝ → ℝ → ℝ) {n g : ℕ}
    (umis : Fin n → Fin g → ℕ) (j : Fin g) : Option ℝ :=
  if pf_std_pct_nz umis j = some 0 then some 1
  else ocdf cdf (pf_pct umis j) (pf_exp_pct_nz umis j) (pf_std_pct_nz umis j)

/-- Claim C7, counterexample: on the all-zero 1×1 count matrix the grand total
is zero, `exp = 0/0` is NaN, the NaN propagates through `prob_zero`, the
variance and the cdf, and `poisson_fit` returns NaN — neither a value in
`[0, 1]` nor the claimed `1.0` for an all-zero feature. -/
theorem poisson_fit_allzero_matrix_nan :
    poisson_fit (fun _ _ _ => (1/2 : ℝ)) (fun (_ : Fin 1) (_ : Fin 1) => (0:ℕ)) 0 = none ∧
    poisson_fit (fun _ _ _ => (1/2 : ℝ)) (fun (_ : Fin 1) (_ : Fin 1) => (0:ℕ)) 0 ≠ some 1 := by
  have hexp : pf_exp (fun (_ : Fin 1) (_ : Fin 1) => (0:ℕ)) 0 = none := by
    rw [pf_exp]
    simp [odiv]
  have hprob : ∀ i, pf_prob_zero (fun (_ : Fin 1) (_ : Fin 1) => (0:ℕ)) 0 i = none := by
    intro i
    rw [pf_prob_zero, hexp]
    rfl
  have hvar : pf_var_pct_nz (fun (_ : Fin 1) (_ : Fin 1) => (0:ℕ)) 0 = none := by
    rw [pf_var_pct_nz, osum_none _ 0 (by rw [hprob 0]; rfl)]
    rfl
  have hstd : pf_std_pct_nz (fun (_ : Fin 1) (_ : Fin 1) => (0:ℕ)) 0 = none := by
    rw [pf_std_pct_nz, hvar]
    rfl
  have hm : pf_exp_pct_nz (fun (_ : Fin 1) (_ : Fin 1) => (0:ℕ)) 0 = none := by
    rw [pf_exp_pct_nz, osum_none _ 0 (by rw [hprob 0]; rfl)]
    rfl
  have hpct : pf_pct (fun (_ : Fin 1) (_ : Fin 1) => (0:ℕ)) 0 = some 0 := by
    rw [pf_pct, odiv]
    norm_num
  have : poisson_fit (fun _ _ _ => (1/2 : ℝ)) (fun (_ : Fin 1) (_ : Fin 1) => (0:ℕ)) 0 = none := by
    rw [poisson_fit, if_neg (by rw [hstd]; exact fun h => Option.noConfusion h), hm, hstd, hpct]
    rfl
  exact ⟨this, by rw [this]; exact fun h => Option.noConfusion h⟩

/-- The finite value of `prob_zero[j, i]` when the grand total is nonzero. -/
noncomputable def pf_z {n g : ℕ} (umis : Fin n → Fin g → ℕ) (j : Fin g) (i : Fin n) : ℝ :=
  Real.exp (-((∑ i2, (umis i2 j : ℝ)) / (∑ i2, ∑ j2, (umis i2 j2 : ℝ)) * pf_numis umis i))

lemma pf_exp_some {n g : ℕ} (umis : Fin n → Fin g → ℕ) (j : Fin g)
    (hG : (0:ℝ) < ∑ i, ∑ j2, (umis i j2 : ℝ)) :
    pf_exp umis j = some ((∑ i, (umis i j : ℝ)) / (∑ i, ∑ j2, (umis i j2 : ℝ))) := by
  rw [pf_exp]
  simp only [odiv]
  rw [if_neg hG.ne']

lemma pf_prob_zero_some {n g : ℕ} (umis : Fin n → Fin g → ℕ) (j : Fin g) (i : Fin n)
    (hG : (0:ℝ) < ∑ i2, ∑ j2, (umis i2 j2 : ℝ)) :
    pf_prob_zero umis j i = some (pf_z umis j i) := by
  rw [pf_prob_zero, pf_exp_some umis j hG]
  rfl

lemma pf_z_pos {n g : ℕ} (umis : Fin n → Fin g → ℕ) (j : Fin g) (i : Fin n) :
    0 < pf_z umis j i :=
  Real.exp_pos _

lemma pf_z_le_one {n g : ℕ} (umis : Fin n → Fin g → ℕ) (j : Fin g) (i : Fin n) :
    pf_z umis j i ≤ 1 := by
  rw [pf_z]
  rw [show (1:ℝ) = Real.exp 0 by rw [Real.exp_zero]]
  apply Real.exp_le_exp.mpr
  have h1 : (0:ℝ) ≤ (∑ i2, (umis i2 j : ℝ)) / (∑ i2, ∑ j2, (umis i2 j2 : ℝ)) := by
    apply div_nonneg <;> positivity
  have h2 : (0:ℝ) ≤ pf_numis umis i := by
    rw [pf_numis]
    positivity
  nlinarith

lemma pf_exp_pct_nz_some {n g : ℕ} (umis : Fin n → Fin g → ℕ) (j : Fin g)
    (hn : (0:ℝ) < (n:ℝ)) (hG : (0:ℝ) < ∑ i2, ∑ j2, (umis i2 j2 : ℝ)) :
    pf_exp_pct_nz umis j = some ((∑ i, (1 - pf_z umis j i)) / n) := by
  rw [pf_exp_pct_nz]
  have hfn : (fun i => osub (some 1) (pf_prob_zero umis j i)) =
      fun i => some (1 - pf_z umis j i) := by
    funext i
    rw [pf_prob_zero_some umis j i hG]
    rfl
  rw [hfn, osum_some]
  simp only [odiv]
  rw [if_neg hn.ne']

lemma pf_var_pct_nz_some {n g : ℕ} (umis : Fin n → Fin g → ℕ) (j : Fin g)
    (hn : (0:ℝ) < (n:ℝ)) (hG : (0:ℝ) < ∑ i2, ∑ j2, (umis i2 j2 : ℝ)) :
    pf_var_pct_nz umis j = some ((∑ i, pf_z umis j i * (1 - pf_z umis j i)) / n / n) := by
  rw [pf_var_pct_nz]
  have hfn : (fun i => omul (pf_prob_zero umis j i) (osub (some 1) (pf_prob_zero umis j i))) =
      fun i => some (pf_z umis j i * (1 - pf_z umis j i)) := by
    funext i
    rw [pf_prob_zero_some umis j i hG]
    rfl
  rw [hfn, osum_some]
  have hinner : odiv (some (∑ i, pf_z umis j i * (1 - pf_z umis j i))) (some (n:ℝ)) =
      some ((∑ i, pf_z umis j i * (1 - pf_z umis j i)) / n) := by
    simp only [odiv]
    rw [if_neg hn.ne']
  rw [hinner]
  simp only [odiv]
  rw [if_neg hn.ne']

/-- Claim C7, amended: provided the count matrix has a nonzero grand total (the
all-zero matrix makes `exp = 0/0` NaN, see the counterexample), `poisson_fit`
returns one finite value per feature, every value lies in `[0, 1]`, and every
feature with zero estimated variance — in particular a feature that is zero in
every observation — receives exactly `1.0`.  The external normal cdf is any
function with values in `[0, 1]`. -/
theorem poisson_fit_bounds {n g : ℕ} (cdf : ℝ → ℝ → ℝ → ℝ)
    (hcdf : ∀ x l sc, 0 ≤ cdf x l sc ∧ cdf x l sc ≤ 1)
    (umis : Fin n → Fin g → ℕ) (htot : 0 < ∑ i, ∑ j2, umis i j2) (j : Fin g) :
    ∃ v, poisson_fit cdf umis j = some v ∧ 0 ≤ v ∧ v ≤ 1 ∧
      ((∀ i, umis i j = 0) → v = 1) := by
  have hG : (0:ℝ) < ∑ i, ∑ j2, (umis i j2 : ℝ) := by exact_mod_cast htot
  have hn0 : n ≠ 0 := by
    rintro rfl
    simp at htot
  have hn : (0:ℝ) < (n:ℝ) := by
    have := Nat.pos_of_ne_zero hn0
    exact_mod_cast this
  have hstd : pf_std_pct_nz umis j =
      some (Real.sqrt ((∑ i, pf_z umis j i * (1 - pf_z umis j i)) / n / n)) := by
    rw [pf_std_pct_nz, pf_var_pct_nz_some umis j hn hG]
    rfl
  by_cases hS : Real.sqrt ((∑ i, pf_z umis j i * (1 - pf_z umis j i)) / n / n) = 0
  · refine ⟨1, ?_, by norm_num, by norm_num, fun _ => rfl⟩
    rw [poisson_fit, if_pos]
    rw [hstd, hS]
  · have hpct : pf_pct umis j =
        some (((Finset.univ.filter (fun i => 0 < umis i j)).card : ℝ) / n) := by
      rw [pf_pct]
      simp only [odiv]
      rw [if_neg hn.ne']
    refine ⟨cdf (((Finset.univ.filter (fun i => 0 < umis i j)).card : ℝ) / n)
      ((∑ i, (1 - pf_z umis j i)) / n)
      (Real.sqrt ((∑ i, pf_z umis j i * (1 - pf_z umis j i)) / n / n)),
      ?_, (hcdf _ _ _).1, (hcdf _ _ _).2, ?_⟩
    · rw [poisson_fit, if_neg, hpct, pf_exp_pct_nz_some umis j hn hG, hstd]
      · rfl
      · rw [hstd]
        intro hcontra
        exact hS (Option.some_injective _ hcontra)
    · intro hzero
      exfalso
      apply hS
      have hz1 : ∀ i, pf_z umis j i = 1 := by
        intro i
        rw [pf_z]
        have hcol : (∑ i2, (umis i2 j : ℝ)) = 0 := by
          refine Finset.sum_eq_zero fun i2 _ => ?_
          rw [hzero i2]
          norm_num
        rw [hcol, zero_div, zero_mul, neg_zero, Real.exp_zero]
      have hV0 : (∑ i, pf_z umis j i * (1 - pf_z umis j i)) = 0 := by
        refine Finset.sum_eq_zero fun i _ => ?_
        rw [hz1 i]
        ring
      rw [hV0, zero_div, zero_div, Real.sqrt_zero]

/-- Witness for `poisson_fit_bounds`: the 1×1 matrix with a single count `1` and
the constant cdf `1/2`. -/
theorem poisson_fit_bounds_witness :
    ∃ v, poisson_fit (fun _ _ _ => (1/2:ℝ)) (fun (_ : Fin 1) (_ : Fin 1) => (1:ℕ)) 0 = some v ∧
      0 ≤ v ∧ v ≤ 1 ∧ ((∀ i : Fin 1, (fun (_ : Fin 1) (_ : Fin 1) => (1:ℕ)) i 0 = 0) → v = 1) :=
  poisson_fit_bounds (fun _ _ _ => (1/2:ℝ)) (fun _ _ _ => ⟨by norm_num, by norm_num⟩)
    (fun _ _ => 1) (by simp) 0

/-- `np.arange(start, stop, step)` over `ℝ`: the values `start + k*step` for
`0 ≤ k < ⌈(stop - start)/step⌉`. -/
noncomputable def arange (start stop step : ℝ) : List ℝ :=
  (List.range (⌈(stop - start) / step⌉).toNat).map (fun (k : ℕ) => start + (k : ℝ) * step)

/-- The interpolation grid `p_range` (util.py lines 62-65):
`vs = 2 ** np.arange(0, ceil(log2(max_val + 1)) + 1) - 1` and, for each pair of
consecutive breakpoints, the segment `np.arange(vs[i], vs[i+1], 2^(i+1) * 0.01)`;
the segments are concatenated with `np.hstack`. -/
noncomputable def p_range (max_val : ℝ) : List ℝ :=
  (List.range ((⌈Real.logb 2 (max_val + 1)⌉ + 1).toNat - 1)).flatMap
    (fun i => arange ((2:ℝ) ^ i - 1) ((2:ℝ) ^ (i + 1) - 1) ((2:ℝ) ^ (i + 1) * 0.01))

/-- `np.interp(x, xp, fp)` on the list of knot pairs `xp.zip fp`: piecewise-linear
interpolation between consecutive knots, clamping to `fp[0]` below `xp[0]` and to
`fp[-1]` at or above `xp[-1]`. -/
noncomputable def interp_pairs (x : ℝ) : List (ℝ × ℝ) → ℝ
  | [] => 0
  | [(_, f0)] => f0
  | (x0, f0) :: (x1, f1) :: rest =>
    if x < x1 then
      (if x ≤ x0 then f0 else f0 + (x - x0) * (f1 - f0) / (x1 - x0))
    else interp_pairs x ((x1, f1) :: rest)

/-- `convert_expectations(exp_sqrt, a, b)` (util.py lines 43-80) for scalar
scaling factors.  The input is clamped to nonnegative, `max_val = max(exp_sqrt²)/a`,
the grid is built, `xp = expected_sqrt(p_range * a)`, `fp = expected_sqrt(p_range * b)`,
and each entry is interpolated through `np.interp`.  `none` models the
`ValueError` that `np.hstack` raises when the segment list is empty (which
happens exactly when `max_val = 0`, i.e. every input is `≤ 0`). -/
noncomputable def convert_expectations (xs : List ℝ) (a b : ℝ) : Option (List ℝ) :=
  let clamped := xs.map (fun t => max t 0)
  let max_val := (clamped.map (fun t => t ^ 2)).foldr max 0 / a
  let grid := p_range max_val
  if grid = [] then none
  else
    let xp := grid.map (fun p => expected_sqrt (p * a))
    let fp := grid.map (fun p => expected_sqrt (p * b))
    some (clamped.map (fun t => interp_pairs t (xp.zip fp)))

lemma sum_Icc_one_eq_sum_range (f : ℕ → ℝ) :
    ∑ k ∈ Finset.Icc (1:ℕ) 59, f k = ∑ j ∈ Finset.range 59, f (j + 1) := by
  have h : Finset.Icc (1:ℕ) 59 =
      Finset.map ⟨Nat.succ, Nat.succ_injective⟩ (Finset.range 59) := by
    ext k
    simp only [Finset.mem_Icc, Finset.mem_map, Finset.mem_range,
      Function.Embedding.coeFn_mk, Nat.succ_eq_add_one]
    constructor
    · rintro ⟨h1, h2⟩
      exact ⟨k - 1, by omega, by omega⟩
    · rintro ⟨j, hj, rfl⟩
      omega
  rw [h, Finset.sum_map]
  rfl

/-- The truncated series underestimates `sqrt`: for `x ≥ 0`,
`taylor_expand x ≤ sqrt x` (AM-GM per term plus `Σ x^k/k! ≤ exp x`). -/
lemma taylor_expand_le_sqrt {x : ℝ} (hx : 0 ≤ x) : taylor_expand x ≤ Real.sqrt x := by
  rcases eq_or_lt_of_le hx with hx0 | hx0
  · rw [← hx0, taylor_expand_zero, Real.sqrt_zero]
  rw [taylor_expand_eq]
  have hsx : 0 < Real.sqrt x := Real.sqrt_pos.mpr hx0
  have hterm : ∀ k ∈ Finset.Icc (1:ℕ) 59,
      x ^ k * Real.sqrt (k:ℝ) / (Nat.factorial k : ℝ) ≤
        x ^ k * ((k + x) / (2 * Real.sqrt x)) / (Nat.factorial k : ℝ) := by
    intro k hk
    have hksq : Real.sqrt (k:ℝ) * Real.sqrt (k:ℝ) = (k:ℝ) :=
      Real.mul_self_sqrt (by positivity)
    have hxsq : Real.sqrt x * Real.sqrt x = x := Real.mul_self_sqrt hx
    have hs : Real.sqrt (k:ℝ) ≤ (k + x) / (2 * Real.sqrt x) := by
      rw [le_div_iff₀ (by positivity)]
      nlinarith [sq_nonneg (Real.sqrt (k:ℝ) - Real.sqrt x), Real.sqrt_nonneg (k:ℝ),
        Real.sqrt_nonneg x]
    have h1 : (0:ℝ) ≤ x ^ k := by positivity
    have h2 : (0:ℝ) < (Nat.factorial k : ℝ) := by positivity
    apply div_le_div_of_nonneg_right _ h2.le
    exact mul_le_mul_of_nonneg_left hs h1
  have hsum1 : ∑ k ∈ Finset.Icc (1:ℕ) 59, (k:ℝ) * x ^ k / (Nat.factorial k : ℝ) ≤
      x * Real.exp x := by
    have hre : ∑ k ∈ Finset.Icc (1:ℕ) 59, (k:ℝ) * x ^ k / (Nat.factorial k : ℝ) =
        x * ∑ j ∈ Finset.range 59, x ^ j / (Nat.factorial j : ℝ) := by
      rw [sum_Icc_one_eq_sum_range (fun k => (k:ℝ) * x ^ k / (Nat.factorial k : ℝ))]
      rw [Finset.mul_sum]
      refine Finset.sum_congr rfl fun j _ => ?_
      have hfs : (Nat.factorial (j + 1) : ℝ) = (j + 1) * (Nat.factorial j : ℝ) := by
        rw [Nat.factorial_succ]
        push_cast
        ring
      have hj1 : ((j:ℝ) + 1) ≠ 0 := by positivity
      have hfj : (Nat.factorial j : ℝ) ≠ 0 := by positivity
      rw [hfs]
      push_cast
      field_simp
      ring
    rw [hre]
    have hb : ∑ j ∈ Finset.range 59, x ^ j / (Nat.factorial j : ℝ) ≤ Real.exp x := by
      have := Real.sum_le_exp_of_nonneg hx 59
      simpa using this
    exact mul_le_mul_of_nonneg_left hb hx
  have hsum2 : ∑ k ∈ Finset.Icc (1:ℕ) 59, x ^ k / (Nat.factorial k : ℝ) ≤ Real.exp x := by
    have hsub : Finset.Icc (1:ℕ) 59 ⊆ Finset.range 60 := by
      intro k hk
      simp only [Finset.mem_Icc] at hk
      simp only [Finset.mem_range]
      omega
    calc ∑ k ∈ Finset.Icc (1:ℕ) 59, x ^ k / (Nat.factorial k : ℝ)
        ≤ ∑ k ∈ Finset.range 60, x ^ k / (Nat.factorial k : ℝ) :=
          Finset.sum_le_sum_of_subset_of_nonneg hsub (fun k _ _ => by positivity)
      _ ≤ Real.exp x := by
          have := Real.sum_le_exp_of_nonneg hx 60
          simpa using this
  have hsep : ∑ k ∈ Finset.Icc (1:ℕ) 59,
      x ^ k * ((k + x) / (2 * Real.sqrt x)) / (Nat.factorial k : ℝ) =
      ((∑ k ∈ Finset.Icc (1:ℕ) 59, (k:ℝ) * x ^ k / (Nat.factorial k : ℝ)) +
        x * ∑ k ∈ Finset.Icc (1:ℕ) 59, x ^ k / (Nat.factorial k : ℝ)) /
        (2 * Real.sqrt x) := by
    rw [Finset.mul_sum, ← Finset.sum_add_distrib, Finset.sum_div]
    refine Finset.sum_congr rfl fun k hk => ?_
    have h2 : (Nat.factorial k : ℝ) ≠ 0 := by positivity
    have h3 : Real.sqrt x ≠ 0 := hsx.ne'
    field_simp
    ring
  calc Real.exp (-x) * ∑ k ∈ Finset.Icc (1:ℕ) 59,
        x ^ k * Real.sqrt (k:ℝ) / (Nat.factorial k : ℝ)
      ≤ Real.exp (-x) * ∑ k ∈ Finset.Icc (1:ℕ) 59,
        x ^ k * ((k + x) / (2 * Real.sqrt x)) / (Nat.factorial k : ℝ) := by
        apply mul_le_mul_of_nonneg_left (Finset.sum_le_sum hterm) (Real.exp_pos _).le
    _ = Real.exp (-x) *
        (((∑ k ∈ Finset.Icc (1:ℕ) 59, (k:ℝ) * x ^ k / (Nat.factorial k : ℝ)) +
          x * ∑ k ∈ Finset.Icc (1:ℕ) 59, x ^ k / (Nat.factorial k : ℝ)) /
          (2 * Real.sqrt x)) := by rw [hsep]
    _ ≤ Real.exp (-x) * ((x * Real.exp x + x * Real.exp x) / (2 * Real.sqrt x)) := by
        apply mul_le_mul_of_nonneg_left _ (Real.exp_pos _).le
        apply div_le_div_of_nonneg_right _ (by positivity)
        exact add_le_add hsum1 (mul_le_mul_of_nonneg_left hsum2 hx)
    _ = Real.sqrt x := by
        rw [Real.exp_neg]
        have hne : Real.exp x ≠ 0 := (Real.exp_pos x).ne'
        have h3 : Real.sqrt x ≠ 0 := hsx.ne'
        have hms : Real.sqrt x * Real.sqrt x = x := Real.mul_self_sqrt hx
        field_simp
        nlinarith [hms, Real.exp_pos x]

lemma arange_mem_bound {s e st y : ℝ} (hy : y ∈ arange s e st) :
    ∃ k : ℕ, k < (⌈(e - s) / st⌉).toNat ∧ y = s + k * st := by
  rw [arange] at hy
  simp only [List.mem_map, List.mem_range] at hy
  obtain ⟨k, hk, hkeq⟩ := hy
  exact ⟨k, hk, hkeq.symm⟩

lemma seg_ratio (i : ℕ) :
    (((2:ℝ) ^ (i+1) - 1) - ((2:ℝ) ^ i - 1)) / ((2:ℝ) ^ (i+1) * 0.01) = 50 := by
  have h2 : (2:ℝ) ^ (i+1) = 2 * 2 ^ i := by
    rw [pow_succ]
    ring
  have hpos : (0:ℝ) < 2 ^ i := by positivity
  rw [h2]
  field_simp
  ring

lemma p_range_mem_bounds {M y : ℝ} (hy : y ∈ p_range M)
    (hN : (⌈Real.logb 2 (M + 1)⌉ + 1).toNat - 1 ≤ 5) :
    0 ≤ y ∧ y ≤ 30.68 := by
  rw [p_range, List.mem_flatMap] at hy
  obtain ⟨i, hi, hyi⟩ := hy
  rw [List.mem_range] at hi
  obtain ⟨k, hk, rfl⟩ := arange_mem_bound hyi
  rw [seg_ratio i] at hk
  have hk49 : (k:ℝ) ≤ 49 := by
    have h50 : (⌈(50:ℝ)⌉) = 50 := by norm_num
    rw [h50] at hk
    have : k ≤ 49 := by omega
    exact_mod_cast this
  have hi4 : i ≤ 4 := by omega
  have h1p : (1:ℝ) ≤ 2 ^ i := one_le_pow₀ (by norm_num)
  have h16 : (2:ℝ) ^ i ≤ 16 := by
    calc (2:ℝ) ^ i ≤ 2 ^ 4 := by
          apply pow_le_pow_right₀ (by norm_num) hi4
      _ = 16 := by norm_num
  have hsucc : (2:ℝ) ^ (i+1) = 2 * 2 ^ i := by
    rw [pow_succ]
    ring
  constructor
  · have : (0:ℝ) ≤ (k:ℝ) * ((2:ℝ) ^ (i+1) * 0.01) := by positivity
    nlinarith
  · rw [hsucc]
    have hknn : (0:ℝ) ≤ (k:ℝ) := Nat.cast_nonneg k
    nlinarith

lemma logb_ceil_le {M : ℝ} (hM : M + 1 ≤ 32) (hM0 : 0 < M + 1) :
    (⌈Real.logb 2 (M + 1)⌉ + 1).toNat - 1 ≤ 5 := by
  have hlog : Real.logb 2 (M + 1) ≤ 5 := by
    rw [Real.logb_le_iff_le_rpow (by norm_num) hM0]
    rw [show ((5:ℝ)) = ((5:ℕ):ℝ) by norm_num, Real.rpow_natCast]
    norm_num
    linarith
  have hceil : ⌈Real.logb 2 (M + 1)⌉ ≤ 5 := Int.ceil_le.mpr (by exact_mod_cast hlog)
  omega

lemma p_range_ne_nil {M : ℝ} (hM : 1 < M + 1) : p_range M ≠ [] := by
  have hlog : 0 < Real.logb 2 (M + 1) := Real.logb_pos (by norm_num) hM
  have hceil : 1 ≤ ⌈Real.logb 2 (M + 1)⌉ := by
    have := Int.ceil_pos.mpr hlog
    omega
  apply List.ne_nil_of_mem (a := (0:ℝ))
  rw [p_range, List.mem_flatMap]
  refine ⟨0, ?_, ?_⟩
  · rw [List.mem_range]
    omega
  · rw [arange]
    simp only [List.mem_map, List.mem_range]
    refine ⟨0, ?_, by norm_num⟩
    have h0 : ((((2:ℝ) ^ (0+1) - 1) - ((2:ℝ) ^ 0 - 1)) / ((2:ℝ) ^ (0+1) * 0.01)) = 50 :=
      seg_ratio 0
    rw [h0]
    norm_num

lemma interp_pairs_ge_all (x : ℝ) : ∀ (pts : List (ℝ × ℝ)) (hne : pts ≠ [])
    (_ : ∀ pr ∈ pts, pr.1 ≤ x), interp_pairs x pts = (pts.getLast hne).2
  | [], hne, _ => absurd rfl hne
  | [(x0, f0)], _, _ => rfl
  | (x0, f0) :: (x1, f1) :: rest, _, hall => by
    rw [interp_pairs]
    rw [if_neg (not_lt.mpr (hall (x1, f1) (by simp)))]
    rw [interp_pairs_ge_all x ((x1, f1) :: rest) (by simp)
      (fun pr hpr => hall pr (List.mem_cons_of_mem _ hpr))]
    simp [List.getLast_cons]

/-- Claim C5, counterexample: `convert_expectations([5.56], 1, 1) ≠ [5.56]`.
With `max_val = 5.56² = 30.9136` the grid's largest knot is `30.68`, every
`xp` value is at most `expected_sqrt(30.68) ≤ sqrt(30.68) < 5.56`, so
`np.interp` clamps the input to the top knot value, strictly below `5.56`. -/
theorem convert_expectations_identity_false :
    convert_expectations [5.56] 1 1 ≠ some [5.56] := by
  have hgridne : p_range (30.9136 : ℝ) ≠ [] := p_range_ne_nil (by norm_num)
  have hNb : (⌈Real.logb 2 ((30.9136:ℝ) + 1)⌉ + 1).toNat - 1 ≤ 5 :=
    logb_ceil_le (by norm_num) (by norm_num)
  have hxp : ∀ v ∈ (p_range (30.9136:ℝ)).map (fun p => expected_sqrt (p * 1)), v < 5.56 := by
    intro v hv
    rw [List.mem_map] at hv
    obtain ⟨p, hp, rfl⟩ := hv
    obtain ⟨hp0, hp68⟩ := p_range_mem_bounds hp hNb
    rw [mul_one, expected_sqrt, if_neg (not_le.mpr (by linarith : p < 34.94)),
      min_eq_left (by linarith)]
    calc taylor_expand p ≤ Real.sqrt p := taylor_expand_le_sqrt hp0
      _ ≤ Real.sqrt 30.68 := Real.sqrt_le_sqrt hp68
      _ < 5.56 := by
          rw [Real.sqrt_lt' (by norm_num)]
          norm_num
  intro hcontra
  simp only [convert_expectations] at hcontra
  have hclamped : ([(5.56:ℝ)].map (fun t => max t 0)) = [5.56] := by
    simp only [List.map_cons, List.map_nil]
    norm_num
  rw [hclamped] at hcontra
  have hmv : ((([(5.56:ℝ)]).map (fun t => t ^ 2)).foldr max 0) / 1 = (30.9136:ℝ) := by
    simp only [List.map_cons, List.map_nil, List.foldr_cons, List.foldr_nil]
    norm_num
  rw [hmv] at hcontra
  rw [if_neg hgridne] at hcontra
  simp only [List.map_cons, List.map_nil, Option.some.injEq, List.cons.injEq,
    and_true] at hcontra
  have hxpne : (p_range (30.9136:ℝ)).map (fun p => expected_sqrt (p * 1)) ≠ [] := by
    intro h
    exact hgridne (List.map_eq_nil_iff.mp h)
  have hptsne : ((p_range (30.9136:ℝ)).map (fun p => expected_sqrt (p * 1))).zip
      ((p_range (30.9136:ℝ)).map (fun p => expected_sqrt (p * 1))) ≠ [] := by
    intro h
    apply hxpne
    have hlen := congrArg List.length h
    rw [List.length_zip, min_self, List.length_nil] at hlen
    exact List.eq_nil_of_length_eq_zero hlen
  have hall : ∀ pr ∈ ((p_range (30.9136:ℝ)).map (fun p => expected_sqrt (p * 1))).zip
      ((p_range (30.9136:ℝ)).map (fun p => expected_sqrt (p * 1))), pr.1 ≤ 5.56 := by
    intro pr hpr
    exact (hxp pr.1 (List.of_mem_zip hpr).1).le
  rw [interp_pairs_ge_all 5.56 _ hptsne hall] at hcontra
  have hmem := List.getLast_mem hptsne
  have hsnd := (List.of_mem_zip hmem).2
  have := hxp _ hsnd
  rw [hcontra] at this
  exact lt_irrefl _ this

/-- The polynomial part of `taylor_expand` in its rewritten form
(`taylor_expand x = exp(-x) * taylor_sum x`). -/
noncomputable def taylor_sum (x : ℝ) : ℝ :=
  ∑ k ∈ Finset.Icc (1:ℕ) 59, x ^ k * Real.sqrt (k:ℝ) / (Nat.factorial k : ℝ)

/-- Derivative of `taylor_sum`. -/
noncomputable def taylor_sum_d (x : ℝ) : ℝ :=
  ∑ k ∈ Finset.Icc (1:ℕ) 59, ((k:ℝ) * x ^ (k-1)) * Real.sqrt (k:ℝ) / (Nat.factorial k : ℝ)

lemma taylor_expand_eq_sum (x : ℝ) : taylor_expand x = Real.exp (-x) * taylor_sum x :=
  taylor_expand_eq x

lemma taylor_sum_hasDeriv (x : ℝ) : HasDerivAt taylor_sum (taylor_sum_d x) x := by
  have h : ∀ k ∈ Finset.Icc (1:ℕ) 59,
      HasDerivAt (fun y => y ^ k * Real.sqrt (k:ℝ) / (Nat.factorial k : ℝ))
        (((k:ℝ) * x ^ (k-1)) * Real.sqrt (k:ℝ) / (Nat.factorial k : ℝ)) x := by
    intro k _
    exact ((hasDerivAt_pow k x).mul_const _).div_const _
  have := HasDerivAt.sum h
  simpa [taylor_sum, taylor_sum_d] using this

lemma taylor_expand_hasDeriv (x : ℝ) :
    HasDerivAt taylor_expand (Real.exp (-x) * (taylor_sum_d x - taylor_sum x)) x := by
  have hfun : taylor_expand = fun y => Real.exp (-y) * taylor_sum y :=
    funext taylor_expand_eq_sum
  rw [hfun]
  have h1 : HasDerivAt (fun y : ℝ => -y) (-1) x := (hasDerivAt_id x).neg
  have he : HasDerivAt (fun y : ℝ => Real.exp (-y)) (Real.exp (-x) * (-1)) x := h1.exp
  have := he.mul (taylor_sum_hasDeriv x)
  convert this using 1
  ring

lemma sum_range_sixty_split (F : ℕ → ℝ) :
    ∑ j ∈ Finset.range 60, F j = F 0 + ∑ k ∈ Finset.Icc (1:ℕ) 59, F k := by
  have h : Finset.range 60 = insert 0 (Finset.Icc 1 59) := by
    ext k
    simp only [Finset.mem_range, Finset.mem_insert, Finset.mem_Icc]
    omega
  rw [h, Finset.sum_insert (by simp)]

lemma taylor_sum_d_sub (x : ℝ) :
    taylor_sum_d x - taylor_sum x =
      (∑ j ∈ Finset.range 59,
        (Real.sqrt ((j:ℝ) + 1) - Real.sqrt (j:ℝ)) * x ^ j / (Nat.factorial j : ℝ)) -
      Real.sqrt 59 * x ^ 59 / (Nat.factorial 59 : ℝ) := by
  have h1 : taylor_sum_d x =
      ∑ j ∈ Finset.range 59, Real.sqrt ((j:ℝ) + 1) * x ^ j / (Nat.factorial j : ℝ) := by
    rw [taylor_sum_d,
      sum_Icc_one_eq_sum_range (fun k => ((k:ℝ) * x ^ (k-1)) * Real.sqrt (k:ℝ) /
        (Nat.factorial k : ℝ))]
    refine Finset.sum_congr rfl fun j _ => ?_
    have hsub : j + 1 - 1 = j := rfl
    rw [hsub, Nat.factorial_succ]
    have h0 : ((j:ℝ) + 1) ≠ 0 := by positivity
    have h2 : (Nat.factorial j : ℝ) ≠ 0 := by positivity
    push_cast
    field_simp
    ring
  have h2 : taylor_sum x =
      (∑ j ∈ Finset.range 59, Real.sqrt (j:ℝ) * x ^ j / (Nat.factorial j : ℝ)) +
        Real.sqrt 59 * x ^ 59 / (Nat.factorial 59 : ℝ) := by
    have hsplit := sum_range_sixty_split
      (fun k => Real.sqrt (k:ℝ) * x ^ k / (Nat.factorial k : ℝ))
    have hzero : Real.sqrt ((0:ℕ):ℝ) * x ^ 0 / (Nat.factorial 0 : ℝ) = 0 := by
      norm_num
    rw [hzero] at hsplit
    have hIcc : taylor_sum x =
        ∑ k ∈ Finset.Icc (1:ℕ) 59, Real.sqrt (k:ℝ) * x ^ k / (Nat.factorial k : ℝ) := by
      rw [taylor_sum]
      refine Finset.sum_congr rfl fun k _ => ?_
      ring
    rw [hIcc, ← zero_add (∑ k ∈ Finset.Icc (1:ℕ) 59, _), ← hsplit,
      Finset.sum_range_succ]
    norm_num
  have hdd : ∑ j ∈ Finset.range 59,
      (Real.sqrt ((j:ℝ) + 1) - Real.sqrt (j:ℝ)) * x ^ j / (Nat.factorial j : ℝ) =
      (∑ j ∈ Finset.range 59, Real.sqrt ((j:ℝ) + 1) * x ^ j / (Nat.factorial j : ℝ)) -
      ∑ j ∈ Finset.range 59, Real.sqrt (j:ℝ) * x ^ j / (Nat.factorial j : ℝ) := by
    rw [← Finset.sum_sub_distrib]
    refine Finset.sum_congr rfl fun j _ => ?_
    ring
  rw [h1, h2, hdd]
  ring

set_option maxRecDepth 8000 in
lemma two_term_dom {x : ℝ} (hx0 : 0 ≤ x) (hxc : x ≤ 34.94) :
    Real.sqrt 59 * x ^ 59 / (Nat.factorial 59 : ℝ) ≤
      (Real.sqrt 49 - Real.sqrt 48) * x ^ 48 / (Nat.factorial 48 : ℝ) +
      (Real.sqrt 50 - Real.sqrt 49) * x ^ 49 / (Nat.factorial 49 : ℝ) := by
  have hF48 : (Nat.factorial 48 : ℝ) =
      12413915592536072670862289047373375038521486354677760000000000 := by
    norm_num [Nat.factorial]
  have hF49 : (Nat.factorial 49 : ℝ) =
      608281864034267560872252163321295376887552831379210240000000000 := by
    norm_num [Nat.factorial]
  have hF59 : (Nat.factorial 59 : ℝ) =
      138683118545689835737939019720389406345902876772687432540821294940160000000000000 := by
    norm_num [Nat.factorial]
  have hs49 : Real.sqrt (49:ℝ) = 7 := by
    rw [show (49:ℝ) = 7^2 by norm_num, Real.sqrt_sq (by norm_num)]
  have hs48 : Real.sqrt (48:ℝ) ≤ 6.9283 := by
    rw [Real.sqrt_le_left (by norm_num)]
    norm_num
  have hs50 : (7.0710:ℝ) ≤ Real.sqrt 50 := by
    rw [Real.le_sqrt (by norm_num) (by norm_num)]
    norm_num
  have hs59 : Real.sqrt (59:ℝ) ≤ 7.6812 := by
    rw [Real.sqrt_le_left (by norm_num)]
    norm_num
  have hxp48 : (0:ℝ) ≤ x ^ 48 := by positivity
  have hx10 : x ^ 10 ≤ (34.94:ℝ) ^ 10 := pow_le_pow_left₀ hx0 hxc 10
  have hx59 : x ^ 59 = x ^ 48 * x ^ 10 * x := by ring
  have hx49 : x ^ 49 = x ^ 48 * x := by ring
  have hF59pos : (0:ℝ) <
      138683118545689835737939019720389406345902876772687432540821294940160000000000000 := by
    norm_num
  have step1 : Real.sqrt 59 * x ^ 59 / (Nat.factorial 59 : ℝ) ≤
      7.6812 * (x ^ 48 * (34.94:ℝ) ^ 10 * x) /
        138683118545689835737939019720389406345902876772687432540821294940160000000000000 := by
    rw [hF59, hx59]
    apply div_le_div_of_nonneg_right _ hF59pos.le
    have h1 : x ^ 48 * x ^ 10 * x ≤ x ^ 48 * (34.94:ℝ) ^ 10 * x := by
      apply mul_le_mul_of_nonneg_right _ hx0
      exact mul_le_mul_of_nonneg_left hx10 hxp48
    exact mul_le_mul hs59 h1 (by positivity) (by norm_num)
  have hA48 : (0.0717:ℝ) ≤ Real.sqrt 49 - Real.sqrt 48 := by
    rw [hs49]
    linarith
  have hA49 : (0.0710:ℝ) ≤ Real.sqrt 50 - Real.sqrt 49 := by
    rw [hs49]
    linarith
  have hCoef : (0:ℝ) ≤
      7.6812 * (34.94:ℝ) ^ 10 /
        138683118545689835737939019720389406345902876772687432540821294940160000000000000 -
      0.0710 / 608281864034267560872252163321295376887552831379210240000000000 := by
    norm_num
  have hCc : (7.6812 * (34.94:ℝ) ^ 10 /
        138683118545689835737939019720389406345902876772687432540821294940160000000000000 -
      0.0710 / 608281864034267560872252163321295376887552831379210240000000000) * 34.94 ≤
      0.0717 / 12413915592536072670862289047373375038521486354677760000000000 := by
    norm_num
  have hCx : (7.6812 * (34.94:ℝ) ^ 10 /
        138683118545689835737939019720389406345902876772687432540821294940160000000000000 -
      0.0710 / 608281864034267560872252163321295376887552831379210240000000000) * x ≤
      0.0717 / 12413915592536072670862289047373375038521486354677760000000000 :=
    le_trans (mul_le_mul_of_nonneg_left hxc hCoef) hCc
  have step2 : 7.6812 * (x ^ 48 * (34.94:ℝ) ^ 10 * x) /
        138683118545689835737939019720389406345902876772687432540821294940160000000000000 ≤
      0.0717 * x ^ 48 / 12413915592536072670862289047373375038521486354677760000000000 +
      0.0710 * (x ^ 48 * x) / 608281864034267560872252163321295376887552831379210240000000000 := by
    have hmul := mul_le_mul_of_nonneg_left hCx hxp48
    nlinarith [hmul, hxp48, hx0]
  have step3 :
      0.0717 * x ^ 48 / 12413915592536072670862289047373375038521486354677760000000000 +
      0.0710 * (x ^ 48 * x) / 608281864034267560872252163321295376887552831379210240000000000 ≤
      (Real.sqrt 49 - Real.sqrt 48) * x ^ 48 / (Nat.factorial 48 : ℝ) +
      (Real.sqrt 50 - Real.sqrt 49) * x ^ 49 / (Nat.factorial 49 : ℝ) := by
    rw [hF48, hF49, hx49]
    apply add_le_add
    · apply div_le_div_of_nonneg_right _ (by norm_num)
      exact mul_le_mul_of_nonneg_right hA48 hxp48
    · apply div_le_div_of_nonneg_right _ (by norm_num)
      exact mul_le_mul_of_nonneg_right hA49 (by positivity)
  linarith [step1, step2, step3]

lemma taylor_sum_d_sub_pos {x : ℝ} (hx0 : 0 ≤ x) (hxc : x ≤ 34.94) :
    0 < taylor_sum_d x - taylor_sum x := by
  rw [taylor_sum_d_sub]
  have hterm : ∀ j ∈ Finset.range 59,
      0 ≤ (Real.sqrt ((j:ℝ) + 1) - Real.sqrt (j:ℝ)) * x ^ j / (Nat.factorial j : ℝ) := by
    intro j _
    have h1 : Real.sqrt (j:ℝ) ≤ Real.sqrt ((j:ℝ) + 1) := Real.sqrt_le_sqrt (by linarith)
    apply div_nonneg (mul_nonneg (by linarith) (by positivity)) (by positivity)
  have hsub : ({0, 48, 49} : Finset ℕ) ⊆ Finset.range 59 := by decide
  have hge := Finset.sum_le_sum_of_subset_of_nonneg hsub (fun j hj _ => hterm j hj)
  have hset : ∑ j ∈ ({0, 48, 49} : Finset ℕ),
      (Real.sqrt ((j:ℝ) + 1) - Real.sqrt (j:ℝ)) * x ^ j / (Nat.factorial j : ℝ) =
      1 + ((Real.sqrt 49 - Real.sqrt 48) * x ^ 48 / (Nat.factorial 48 : ℝ) +
        (Real.sqrt 50 - Real.sqrt 49) * x ^ 49 / (Nat.factorial 49 : ℝ)) := by
    rw [show ({0, 48, 49} : Finset ℕ) = insert 0 (insert 48 {49}) from rfl,
      Finset.sum_insert (by decide), Finset.sum_insert (by decide), Finset.sum_singleton]
    have h0 : (Real.sqrt (((0:ℕ):ℝ) + 1) - Real.sqrt ((0:ℕ):ℝ)) * x ^ (0:ℕ) /
        (Nat.factorial 0 : ℝ) = 1 := by
      norm_num [Real.sqrt_one, Real.sqrt_zero]
    have h48 : Real.sqrt (((48:ℕ):ℝ) + 1) = Real.sqrt 49 := by norm_num
    have h48b : Real.sqrt ((48:ℕ):ℝ) = Real.sqrt 48 := by norm_num
    have h49 : Real.sqrt (((49:ℕ):ℝ) + 1) = Real.sqrt 50 := by norm_num
    have h49b : Real.sqrt ((49:ℕ):ℝ) = Real.sqrt 49 := by norm_num
    rw [h0, h48, h48b, h49, h49b]
    try ring
  rw [hset] at hge
  have hdom := two_term_dom hx0 hxc
  linarith

lemma taylor_expand_strictMonoOn : StrictMonoOn taylor_expand (Set.Icc (0:ℝ) 34.94) := by
  apply strictMonoOn_of_deriv_pos (convex_Icc _ _)
  · exact ContinuousAt.continuousOn
      (fun x _ => (taylor_expand_hasDeriv x).differentiableAt.continuousAt)
  · intro x hx
    rw [interior_Icc] at hx
    rw [(taylor_expand_hasDeriv x).deriv]
    exact mul_pos (Real.exp_pos _) (taylor_sum_d_sub_pos hx.1.le hx.2.le)

lemma rpow_neg_half {x : ℝ} (hx : 0 < x) : x ^ (-0.5:ℝ) = 1 / Real.sqrt x := by
  rw [show (-0.5:ℝ) = -(1/2) by norm_num, Real.rpow_neg hx.le, ← Real.sqrt_eq_rpow, one_div]

lemma rpow_neg_two_half {x : ℝ} (hx : 0 < x) : x ^ (-2.5:ℝ) = 1 / (x ^ 2 * Real.sqrt x) := by
  rw [show (-2.5:ℝ) = -((2:ℝ) + 1/2) by norm_num, Real.rpow_neg hx.le, Real.rpow_add hx,
    ← Real.sqrt_eq_rpow, show ((2:ℝ)) = ((2:ℕ):ℝ) by norm_num, Real.rpow_natCast, one_div]

lemma taylor_around_mean_hasDeriv {x : ℝ} (hx : 0 < x) :
    HasDerivAt taylor_around_mean
      (1 / (2 * Real.sqrt x) + x ^ (-1.5:ℝ) / 16 - (3/32) * x ^ (-2.5:ℝ)
        + (25/256) * x ^ (-3.5:ℝ)) x := by
  have h1 : HasDerivAt (fun y : ℝ => Real.sqrt y) (1 / (2 * Real.sqrt x)) x :=
    Real.hasDerivAt_sqrt hx.ne'
  have h2 : HasDerivAt (fun y : ℝ => y ^ (-0.5:ℝ)) ((-0.5) * x ^ ((-0.5:ℝ) - 1)) x :=
    Real.hasDerivAt_rpow_const (Or.inl hx.ne')
  have h3 : HasDerivAt (fun y : ℝ => y ^ (-1.5:ℝ)) ((-1.5) * x ^ ((-1.5:ℝ) - 1)) x :=
    Real.hasDerivAt_rpow_const (Or.inl hx.ne')
  have h4 : HasDerivAt (fun y : ℝ => y ^ (-2.5:ℝ)) ((-2.5) * x ^ ((-2.5:ℝ) - 1)) x :=
    Real.hasDerivAt_rpow_const (Or.inl hx.ne')
  have hD := ((h1.sub (h2.div_const 8)).add (h3.div_const 16)).sub
    ((h4.const_mul 5).div_const 128)
  have hfun : HasDerivAt
      (fun y : ℝ => Real.sqrt y - y ^ (-0.5:ℝ) / 8 + y ^ (-1.5:ℝ) / 16 - 5 * y ^ (-2.5:ℝ) / 128)
      (1 / (2 * Real.sqrt x) - (-0.5) * x ^ ((-0.5:ℝ) - 1) / 8 + (-1.5) * x ^ ((-1.5:ℝ) - 1) / 16
        - 5 * ((-2.5) * x ^ ((-2.5:ℝ) - 1)) / 128) x := by
    convert hD using 1
  have heq : 1 / (2 * Real.sqrt x) - (-0.5) * x ^ ((-0.5:ℝ) - 1) / 8
      + (-1.5) * x ^ ((-1.5:ℝ) - 1) / 16 - 5 * ((-2.5) * x ^ ((-2.5:ℝ) - 1)) / 128 =
      1 / (2 * Real.sqrt x) + x ^ (-1.5:ℝ) / 16 - (3/32) * x ^ (-2.5:ℝ)
        + (25/256) * x ^ (-3.5:ℝ) := by
    rw [show ((-0.5:ℝ) - 1) = (-1.5:ℝ) by norm_num, show ((-1.5:ℝ) - 1) = (-2.5:ℝ) by norm_num,
      show ((-2.5:ℝ) - 1) = (-3.5:ℝ) by norm_num]
    ring
  rw [heq] at hfun
  exact hfun

lemma taylor_around_mean_deriv_pos {x : ℝ} (hx : 34.94 ≤ x) :
    0 < 1 / (2 * Real.sqrt x) + x ^ (-1.5:ℝ) / 16 - (3/32) * x ^ (-2.5:ℝ)
      + (25/256) * x ^ (-3.5:ℝ) := by
  have hx0 : (0:ℝ) < x := lt_of_lt_of_le (by norm_num) hx
  have h15 : (0:ℝ) ≤ x ^ (-1.5:ℝ) := Real.rpow_nonneg hx0.le _
  have h35 : (0:ℝ) ≤ x ^ (-3.5:ℝ) := Real.rpow_nonneg hx0.le _
  have h25 : x ^ (-2.5:ℝ) = 1 / (x ^ 2 * Real.sqrt x) := rpow_neg_two_half hx0
  have hsx : 0 < Real.sqrt x := Real.sqrt_pos.mpr hx0
  have hx2 : (34.94:ℝ) ^ 2 ≤ x ^ 2 := pow_le_pow_left₀ (by norm_num) hx 2
  have key : (3/32) * (1 / (x ^ 2 * Real.sqrt x)) < 1 / (2 * Real.sqrt x) := by
    rw [mul_one_div, div_lt_div_iff₀ (by positivity) (by positivity)]
    nlinarith [hsx, hx2]
  rw [h25]
  linarith

lemma taylor_around_mean_strictMonoOn : StrictMonoOn taylor_around_mean (Set.Ici (34.94:ℝ)) := by
  apply strictMonoOn_of_deriv_pos (convex_Ici _)
  · refine continuousOn_of_forall_continuousAt (fun x hx => ?_)
    have hx0 : (0:ℝ) < x := lt_of_lt_of_le (by norm_num) hx
    exact (taylor_around_mean_hasDeriv hx0).differentiableAt.continuousAt
  · intro x hx
    rw [interior_Ici] at hx
    have hx0 : (0:ℝ) < x := lt_trans (by norm_num) hx
    rw [(taylor_around_mean_hasDeriv hx0).deriv]
    exact taylor_around_mean_deriv_pos hx.le

/-- Rational upper-approximations of `sqrt k` used in the branch-crossing
certificate (any positive rational works in the AM-GM bound). -/
noncomputable def rk : ℕ → ℝ
  | 1 => 1/1
  | 2 => 141421/100000
  | 3 => 34641/20000
  | 4 => 2/1
  | 5 => 223607/100000
  | 6 => 244949/100000
  | 7 => 10583/4000
  | 8 => 282843/100000
  | 9 => 3/1
  | 10 => 79057/25000
  | 11 => 165831/50000
  | 12 => 34641/10000
  | 13 => 72111/20000
  | 14 => 187083/50000
  | 15 => 193649/50000
  | 16 => 4/1
  | 17 => 412311/100000
  | 18 => 53033/12500
  | 19 => 43589/10000
  | 20 => 223607/50000
  | 21 => 229129/50000
  | 22 => 234521/50000
  | 23 => 479583/100000
  | 24 => 244949/50000
  | 25 => 5/1
  | 26 => 254951/50000
  | 27 => 103923/20000
  | 28 => 10583/2000
  | 29 => 134629/25000
  | 30 => 547723/100000
  | 31 => 69597/12500
  | 32 => 113137/20000
  | 33 => 71807/12500
  | 34 => 116619/20000
  | 35 => 73951/12500
  | 36 => 6/1
  | 37 => 152069/25000
  | 38 => 616441/100000
  | 39 => 1249/200
  | 40 => 79057/12500
  | 41 => 80039/12500
  | 42 => 324037/50000
  | 43 => 20492/3125
  | 44 => 26533/4000
  | 45 => 33541/5000
  | 46 => 678233/100000
  | 47 => 137113/20000
  | 48 => 34641/5000
  | 49 => 7/1
  | 50 => 707107/100000
  | 51 => 714143/100000
  | 52 => 72111/10000
  | 53 => 728011/100000
  | 54 => 734847/100000
  | 55 => 37081/5000
  | 56 => 748331/100000
  | 57 => 754983/100000
  | 58 => 761577/100000
  | 59 => 153623/20000
  | _ => 1

lemma rk_pos (k : ℕ) : 0 < rk k := by
  unfold rk
  split <;> norm_num

lemma sqrt_le_amgm {t r : ℝ} (ht : 0 ≤ t) (hr : 0 < r) :
    Real.sqrt t ≤ (t / r + r) / 2 := by
  have hs : Real.sqrt t * Real.sqrt t = t := Real.mul_self_sqrt ht
  have key : Real.sqrt t ≤ (t + r ^ 2) / (2 * r) := by
    rw [le_div_iff₀ (by positivity)]
    nlinarith [sq_nonneg (Real.sqrt t - r)]
  have heq : (t / r + r) / 2 = (t + r ^ 2) / (2 * r) := by
    field_simp
    ring
  rw [heq]
  exact key

set_option maxHeartbeats 10000000 in
set_option maxRecDepth 40000 in
lemma cert_num_ineq : (∑ j ∈ Finset.range 59,
      (((j+1:ℕ):ℝ) / rk (j+1) + rk (j+1)) / 2 * (34.94:ℝ) ^ (j+1) /
        (Nat.factorial (j+1) : ℝ)) ≤
    58893/10000 * (∑ i ∈ Finset.range 13, (1747/1250:ℝ) ^ i / (Nat.factorial i : ℝ)) ^ 25 := by
  simp only [Finset.sum_range_succ, Finset.sum_range_zero]
  norm_num [rk, Nat.factorial]

lemma exp_c_lower :
    (∑ i ∈ Finset.range 13, (1747/1250:ℝ) ^ i / (Nat.factorial i : ℝ)) ^ 25 ≤
      Real.exp 34.94 := by
  have h1 : (∑ i ∈ Finset.range 13, (1747/1250:ℝ) ^ i / (Nat.factorial i : ℝ)) ≤
      Real.exp (1747/1250) := Real.sum_le_exp_of_nonneg (by norm_num) 13
  have hSpos : (0:ℝ) ≤ ∑ i ∈ Finset.range 13, (1747/1250:ℝ) ^ i / (Nat.factorial i : ℝ) := by
    apply Finset.sum_nonneg
    intro i _
    positivity
  calc (∑ i ∈ Finset.range 13, (1747/1250:ℝ) ^ i / (Nat.factorial i : ℝ)) ^ 25
      ≤ (Real.exp (1747/1250)) ^ 25 := pow_le_pow_left₀ hSpos h1 25
    _ = Real.exp 34.94 := by
        rw [show (34.94:ℝ) = (25:ℕ) * (1747/1250) by norm_num, Real.exp_nat_mul]

lemma taylor_c_le : taylor_expand 34.94 ≤ 58893/10000 := by
  rw [taylor_expand_eq]
  have hS : (∑ k ∈ Finset.Icc (1:ℕ) 59,
        (34.94:ℝ) ^ k * Real.sqrt (k:ℝ) / (Nat.factorial k : ℝ)) ≤
      ∑ k ∈ Finset.Icc (1:ℕ) 59,
        (34.94:ℝ) ^ k * (((k:ℝ) / rk k + rk k) / 2) / (Nat.factorial k : ℝ) := by
    apply Finset.sum_le_sum
    intro k _
    have h1 := sqrt_le_amgm (Nat.cast_nonneg k : (0:ℝ) ≤ (k:ℝ)) (rk_pos k)
    have hp : (0:ℝ) ≤ (34.94:ℝ) ^ k := by positivity
    apply div_le_div_of_nonneg_right _ (by positivity : (0:ℝ) ≤ (Nat.factorial k : ℝ))
    exact mul_le_mul_of_nonneg_left h1 hp
  have hreidx : ∑ k ∈ Finset.Icc (1:ℕ) 59,
      (34.94:ℝ) ^ k * (((k:ℝ) / rk k + rk k) / 2) / (Nat.factorial k : ℝ) =
      ∑ j ∈ Finset.range 59,
        (((j+1:ℕ):ℝ) / rk (j+1) + rk (j+1)) / 2 * (34.94:ℝ) ^ (j+1) /
          (Nat.factorial (j+1) : ℝ) := by
    rw [sum_Icc_one_eq_sum_range
      (fun k => (34.94:ℝ) ^ k * (((k:ℝ) / rk k + rk k) / 2) / (Nat.factorial k : ℝ))]
    refine Finset.sum_congr rfl fun j _ => ?_
    ring
  have hsqnn : (0:ℝ) ≤ ∑ k ∈ Finset.Icc (1:ℕ) 59,
      (34.94:ℝ) ^ k * Real.sqrt (k:ℝ) / (Nat.factorial k : ℝ) := by
    apply Finset.sum_nonneg
    intro k _
    positivity
  have hamnn : (0:ℝ) ≤ ∑ k ∈ Finset.Icc (1:ℕ) 59,
      (34.94:ℝ) ^ k * (((k:ℝ) / rk k + rk k) / 2) / (Nat.factorial k : ℝ) :=
    le_trans hsqnn hS
  have hEpos : (0:ℝ) <
      (∑ i ∈ Finset.range 13, (1747/1250:ℝ) ^ i / (Nat.factorial i : ℝ)) ^ 25 := by
    have h0 : (0:ℝ) < (1747/1250:ℝ) ^ 0 / (Nat.factorial 0 : ℝ) := by norm_num
    have : (0:ℝ) < ∑ i ∈ Finset.range 13, (1747/1250:ℝ) ^ i / (Nat.factorial i : ℝ) := by
      apply Finset.sum_pos
      · intro i _
        positivity
      · exact ⟨0, by norm_num⟩
    positivity
  calc Real.exp (-34.94) * ∑ k ∈ Finset.Icc (1:ℕ) 59,
        (34.94:ℝ) ^ k * Real.sqrt (k:ℝ) / (Nat.factorial k : ℝ)
      ≤ Real.exp (-34.94) * ∑ k ∈ Finset.Icc (1:ℕ) 59,
        (34.94:ℝ) ^ k * (((k:ℝ) / rk k + rk k) / 2) / (Nat.factorial k : ℝ) :=
        mul_le_mul_of_nonneg_left hS (Real.exp_pos _).le
    _ ≤ ((∑ i ∈ Finset.range 13, (1747/1250:ℝ) ^ i / (Nat.factorial i : ℝ)) ^ 25)⁻¹ *
        ∑ k ∈ Finset.Icc (1:ℕ) 59,
          (34.94:ℝ) ^ k * (((k:ℝ) / rk k + rk k) / 2) / (Nat.factorial k : ℝ) := by
        apply mul_le_mul_of_nonneg_right _ hamnn
        rw [Real.exp_neg]
        exact inv_le_inv_of_le hEpos exp_c_lower
    _ ≤ ((∑ i ∈ Finset.range 13, (1747/1250:ℝ) ^ i / (Nat.factorial i : ℝ)) ^ 25)⁻¹ *
        (58893/10000 *
          (∑ i ∈ Finset.range 13, (1747/1250:ℝ) ^ i / (Nat.factorial i : ℝ)) ^ 25) := by
        apply mul_le_mul_of_nonneg_left _ (inv_nonneg.mpr hEpos.le)
        rw [hreidx]
        exact cert_num_ineq
    _ = 58893/10000 := by
        field_simp

lemma rpow_neg_one_half {x : ℝ} (hx : 0 < x) : x ^ (-1.5:ℝ) = 1 / (x * Real.sqrt x) := by
  rw [show (-1.5:ℝ) = -((1:ℝ) + 1/2) by norm_num, Real.rpow_neg hx.le, Real.rpow_add hx,
    Real.rpow_one, ← Real.sqrt_eq_rpow, one_div]

lemma high_c_ge : (58893/10000:ℝ) ≤ taylor_around_mean 34.94 := by
  have hc0 : (0:ℝ) < 34.94 := by norm_num
  have hsx : 0 < Real.sqrt (34.94:ℝ) := Real.sqrt_pos.mpr hc0
  have hul : (5.911006:ℝ) ≤ Real.sqrt 34.94 :=
    (Real.le_sqrt (by norm_num) (by norm_num)).mpr (by norm_num)
  have huh : Real.sqrt (34.94:ℝ) ≤ 5.911007 := by
    rw [Real.sqrt_le_left (by norm_num)]
    norm_num
  have hiv1 : 1 / Real.sqrt (34.94:ℝ) ≤ 1 / 5.911006 :=
    one_div_le_one_div_of_le (by norm_num) hul
  have hiv2 : (1:ℝ) / 5.911007 ≤ 1 / Real.sqrt (34.94:ℝ) :=
    one_div_le_one_div_of_le hsx huh
  rw [taylor_around_mean, rpow_neg_half hc0, rpow_neg_one_half hc0, rpow_neg_two_half hc0]
  have e1 : (1:ℝ) / (34.94 * Real.sqrt 34.94) = (1 / Real.sqrt 34.94) / 34.94 := by
    rw [div_div, mul_comm]
  have e2 : (1:ℝ) / ((34.94:ℝ) ^ 2 * Real.sqrt 34.94) = (1 / Real.sqrt 34.94) / (34.94:ℝ)^2 := by
    rw [div_div, mul_comm]
  rw [e1, e2]
  have hnum : (5.911006:ℝ) - (1/5.911006)/8 + ((1:ℝ)/5.911007)/34.94/16 -
      5 * ((1/5.911006)/(34.94:ℝ)^2)/128 ≥ 58893/10000 := by
    norm_num
  have t1 : (1 / Real.sqrt (34.94:ℝ))/8 ≤ (1/5.911006)/8 := by linarith
  have t2 : ((1:ℝ)/5.911007)/34.94/16 ≤ (1 / Real.sqrt (34.94:ℝ))/34.94/16 := by
    have : ((1:ℝ)/5.911007)/34.94 ≤ (1 / Real.sqrt (34.94:ℝ))/34.94 := by
      apply div_le_div_of_nonneg_right hiv2 (by norm_num)
    linarith
  have t3 : 5 * ((1 / Real.sqrt (34.94:ℝ))/(34.94:ℝ)^2)/128 ≤
      5 * ((1/5.911006)/(34.94:ℝ)^2)/128 := by
    have : (1 / Real.sqrt (34.94:ℝ))/(34.94:ℝ)^2 ≤ (1/5.911006)/(34.94:ℝ)^2 := by
      apply div_le_div_of_nonneg_right hiv1 (by positivity)
    linarith
  linarith

/-- The two branches of `expected_sqrt` cross upward at the cutoff: the truncated
series value at `34.94` lies below the asymptotic value there. -/
lemma branch_certificate : taylor_expand 34.94 ≤ taylor_around_mean 34.94 :=
  le_trans taylor_c_le high_c_ge

/-- `expected_sqrt` with the default cutoff is monotone on `[0, ∞)`. -/
lemma expected_sqrt_monotoneOn : MonotoneOn (fun m => expected_sqrt m) (Set.Ici (0:ℝ)) := by
  intro m1 h1 m2 h2 h12
  simp only
  rw [Set.mem_Ici] at h1 h2
  by_cases hc1 : 34.94 ≤ m1
  · have hc2 : (34.94:ℝ) ≤ m2 := le_trans hc1 h12
    rw [expected_sqrt, if_pos hc1, expected_sqrt, if_pos hc2]
    exact taylor_around_mean_strictMonoOn.monotoneOn hc1 hc2 h12
  · have hm1 : m1 ≤ 34.94 := (not_le.mp hc1).le
    rw [expected_sqrt, if_neg hc1, min_eq_left hm1]
    by_cases hc2 : 34.94 ≤ m2
    · rw [expected_sqrt, if_pos hc2]
      calc taylor_expand m1 ≤ taylor_expand 34.94 :=
            taylor_expand_strictMonoOn.monotoneOn ⟨h1, hm1⟩
              ⟨by norm_num, le_refl _⟩ hm1
        _ ≤ taylor_around_mean 34.94 := branch_certificate
        _ ≤ taylor_around_mean m2 :=
            taylor_around_mean_strictMonoOn.monotoneOn (le_refl _) hc2 hc2
    · have hm2 : m2 ≤ 34.94 := (not_le.mp hc2).le
      rw [expected_sqrt, if_neg hc2, min_eq_left hm2]
      exact taylor_expand_strictMonoOn.monotoneOn ⟨h1, hm1⟩ ⟨le_trans h1 h12, hm2⟩ h12

lemma arange_ge_start {s e st y : ℝ} (hst : 0 ≤ st) (hy : y ∈ arange s e st) : s ≤ y := by
  obtain ⟨k, _, rfl⟩ := arange_mem_bound hy
  have h : (0:ℝ) ≤ (k:ℝ) * st := by positivity
  linarith

lemma arange_lt_stop {s e st y : ℝ} (hst : 0 < st) (hy : y ∈ arange s e st) : y < e := by
  obtain ⟨k, hk, rfl⟩ := arange_mem_bound hy
  have hk2 : (k:ℤ) < ⌈(e - s)/st⌉ := by
    rcases le_or_lt ⌈(e - s)/st⌉ 0 with hle | hpos
    · omega
    · omega
  have hk3 : ((k:ℤ):ℝ) < (e - s)/st := Int.lt_ceil.mp hk2
  have hk4 : (k:ℝ) * st < e - s := by
    have := (lt_div_iff₀ hst).mp (by exact_mod_cast hk3)
    linarith
  linarith

lemma arange_chain {s e st : ℝ} (hst : 0 ≤ st) : List.Chain' (· ≤ ·) (arange s e st) := by
  rw [arange, List.chain'_map, List.chain'_iff_get]
  intro i hi
  simp only [List.length_range] at hi
  rw [List.get_range, List.get_range]
  have h : (0:ℝ) ≤ st := hst
  have : ((i:ℝ)) * st ≤ ((i:ℝ) + 1) * st := by nlinarith
  push_cast
  linarith

lemma p_range_chain_aux (n : ℕ) :
    List.Chain' (· ≤ ·) ((List.range n).flatMap
      (fun i => arange ((2:ℝ) ^ i - 1) ((2:ℝ) ^ (i + 1) - 1) ((2:ℝ) ^ (i + 1) * 0.01))) ∧
    (∀ y ∈ (List.range n).flatMap
      (fun i => arange ((2:ℝ) ^ i - 1) ((2:ℝ) ^ (i + 1) - 1) ((2:ℝ) ^ (i + 1) * 0.01)),
      y ≤ (2:ℝ) ^ n - 1) := by
  induction n with
  | zero => simp
  | succ m ih =>
    rw [List.range_succ, List.flatMap_append]
    have hflat : ([m].flatMap
        (fun i => arange ((2:ℝ) ^ i - 1) ((2:ℝ) ^ (i + 1) - 1) ((2:ℝ) ^ (i + 1) * 0.01))) =
        arange ((2:ℝ) ^ m - 1) ((2:ℝ) ^ (m + 1) - 1) ((2:ℝ) ^ (m + 1) * 0.01) := by
      simp
    rw [hflat]
    have hstpos : (0:ℝ) < (2:ℝ) ^ (m + 1) * 0.01 := by positivity
    constructor
    · rw [List.chain'_append]
      refine ⟨ih.1, arange_chain hstpos.le, ?_⟩
      intro x hx y hy
      obtain ⟨hne, hxl⟩ := List.mem_getLast?_eq_getLast hx
      have hxmem := hxl ▸ List.getLast_mem hne
      have hxle := ih.2 x hxmem
      have hyge := arange_ge_start hstpos.le (List.mem_of_mem_head? hy)
      linarith
    · intro y hy
      rcases List.mem_append.mp hy with hy1 | hy2
      · have h1 := ih.2 y hy1
        have h2 : (2:ℝ) ^ m ≤ 2 ^ (m + 1) := by
          apply pow_le_pow_right₀ (by norm_num)
          omega
        linarith
      · have := arange_lt_stop hstpos hy2
        linarith

lemma p_range_chain (M : ℝ) : List.Chain' (· ≤ ·) (p_range M) := by
  rw [p_range]
  exact (p_range_chain_aux _).1

lemma p_range_nonneg {M y : ℝ} (hy : y ∈ p_range M) : 0 ≤ y := by
  rw [p_range, List.mem_flatMap] at hy
  obtain ⟨i, _, hyi⟩ := hy
  have hst : (0:ℝ) ≤ (2:ℝ) ^ (i + 1) * 0.01 := by positivity
  have h1 : (1:ℝ) ≤ 2 ^ i := one_le_pow₀ (by norm_num)
  have := arange_ge_start hst hyi
  linarith

lemma p_range_head {M : ℝ} (h : p_range M ≠ []) : (p_range M).head? = some 0 := by
  rw [p_range] at h ⊢
  rcases hN : (⌈Real.logb 2 (M + 1)⌉ + 1).toNat - 1 with _ | m
  · rw [hN] at h
    simp at h
  · rw [List.range_succ_eq_map, List.flatMap_cons, List.head?_append]
    have hseg : (arange ((2:ℝ) ^ (0:ℕ) - 1) ((2:ℝ) ^ (0 + 1) - 1)
        ((2:ℝ) ^ (0 + 1) * 0.01)).head? = some 0 := by
      rw [arange]
      have hcnt : ((⌈(((2:ℝ) ^ (0 + 1) - 1) - ((2:ℝ) ^ (0:ℕ) - 1)) / ((2:ℝ) ^ (0 + 1) * 0.01)⌉).toNat)
          = 50 := by
        have h0 := seg_ratio 0
        rw [h0]
        have h50 : (⌈(50:ℝ)⌉) = (50:ℤ) := by norm_num
        rw [h50]
        rfl
      rw [hcnt, show (50:ℕ) = 49 + 1 from rfl, List.range_succ_eq_map, List.map_cons]
      simp only [List.head?_cons, Nat.cast_zero]
      norm_num
    rw [hseg]
    rfl

lemma chain'_le_getLast : ∀ (l : List ℝ), List.Chain' (· ≤ ·) l → ∀ (hne : l ≠ [])
    (y : ℝ), y ∈ l → y ≤ l.getLast hne
  | [], _, hne, _, _ => absurd rfl hne
  | [a], _, _, y, hy => by
      rw [List.mem_singleton] at hy
      subst hy
      rfl
  | a :: b :: t2, hc, _, y, hy => by
      have hab : a ≤ b := (List.chain'_cons.mp hc).1
      have htail : List.Chain' (· ≤ ·) (b :: t2) := (List.chain'_cons.mp hc).2
      rw [List.getLast_cons (by simp)]
      rcases List.mem_cons.mp hy with rfl | hy2
      · calc y ≤ b := hab
          _ ≤ (b :: t2).getLast (by simp) :=
            chain'_le_getLast (b :: t2) htail (by simp) b (List.mem_cons_self _ _)
      · exact chain'_le_getLast (b :: t2) htail (by simp) y hy2

lemma chain'_snd_le_getLast : ∀ (l : List (ℝ × ℝ)),
    List.Chain' (fun p q : ℝ × ℝ => p.2 ≤ q.2) l → ∀ (hne : l ≠ [])
    (p : ℝ × ℝ), p ∈ l → p.2 ≤ (l.getLast hne).2
  | [], _, hne, _, _ => absurd rfl hne
  | [a], _, _, p, hp => by
      rw [List.mem_singleton] at hp
      subst hp
      rfl
  | a :: b :: t2, hc, _, p, hp => by
      have hab : a.2 ≤ b.2 := (List.chain'_cons.mp hc).1
      have htail := (List.chain'_cons.mp hc).2
      rw [List.getLast_cons (by simp)]
      rcases List.mem_cons.mp hp with rfl | hp2
      · calc p.2 ≤ b.2 := hab
          _ ≤ ((b :: t2).getLast (by simp)).2 :=
            chain'_snd_le_getLast (b :: t2) htail (by simp) b (List.mem_cons_self _ _)
      · exact chain'_snd_le_getLast (b :: t2) htail (by simp) p hp2

lemma expected_sqrt_zero : expected_sqrt 0 = 0 := by
  rw [expected_sqrt, if_neg (by norm_num), min_eq_left (by norm_num), taylor_expand_zero]

lemma interp_pairs_self : ∀ (l : List ℝ), List.Chain' (· ≤ ·) l → ∀ (hne : l ≠ [])
    (x : ℝ), l.head hne ≤ x → interp_pairs x (l.zip l) = min x (l.getLast hne)
  | [], _, hne, _, _ => absurd rfl hne
  | [a], _, _, x, hx => by
      have hax : a ≤ x := hx
      exact (min_eq_right hax).symm
  | a :: b :: t, hc, hne, x, hx => by
      have hax : a ≤ x := hx
      have hab : a ≤ b := (List.chain'_cons.mp hc).1
      have htail : List.Chain' (· ≤ ·) (b :: t) := (List.chain'_cons.mp hc).2
      have hbt : b ≤ (b :: t).getLast (by simp) :=
        chain'_le_getLast (b :: t) htail (by simp) b (List.mem_cons_self _ _)
      rw [List.zip_cons_cons, List.zip_cons_cons, interp_pairs,
        List.getLast_cons (by simp)]
      by_cases hxb : x < b
      · rw [if_pos hxb]
        by_cases hxa : x ≤ a
        · rw [if_pos hxa]
          have hxa' : x = a := le_antisymm hxa hax
          rw [hxa']
          exact (min_eq_left (by linarith)).symm
        · push_neg at hxa
          rw [if_neg (not_le.mpr hxa)]
          have hba : b - a ≠ 0 := sub_ne_zero.mpr (by linarith)
          rw [mul_div_assoc, div_self hba, mul_one]
          rw [min_eq_left (by linarith : x ≤ (b :: t).getLast (by simp))]
          ring
      · push_neg at hxb
        rw [if_neg (not_lt.mpr hxb)]
        have ih := interp_pairs_self (b :: t) htail (by simp) x hxb
        rw [List.zip_cons_cons] at ih
        exact ih

lemma interp_pairs_ge_head : ∀ (pts : List (ℝ × ℝ)),
    List.Chain' (fun p q : ℝ × ℝ => p.2 ≤ q.2) pts → ∀ (hne : pts ≠ [])
    (x : ℝ), (pts.head hne).1 ≤ x → (pts.head hne).2 ≤ interp_pairs x pts
  | [], _, hne, _, _ => absurd rfl hne
  | [(_, f0)], _, _, _, _ => le_refl f0
  | (x0, f0) :: (x1, f1) :: rest, hc, hne, x, hx => by
      have hx0 : x0 ≤ x := hx
      have hf01 : f0 ≤ f1 := (List.chain'_cons.mp hc).1
      have htail := (List.chain'_cons.mp hc).2
      show f0 ≤ interp_pairs x ((x0, f0) :: (x1, f1) :: rest)
      rw [interp_pairs]
      by_cases hxx1 : x < x1
      · rw [if_pos hxx1]
        by_cases hxx0 : x ≤ x0
        · rw [if_pos hxx0]
        · push_neg at hxx0
          rw [if_neg (not_le.mpr hxx0)]
          have hd : (0:ℝ) < x1 - x0 := by linarith
          have hnn : 0 ≤ (x - x0) * (f1 - f0) / (x1 - x0) :=
            div_nonneg (mul_nonneg (by linarith) (by linarith)) hd.le
          linarith
      · push_neg at hxx1
        rw [if_neg (not_lt.mpr hxx1)]
        have ih := interp_pairs_ge_head ((x1, f1) :: rest) htail (by simp) x hxx1
        exact le_trans hf01 ih

lemma interp_pairs_mono : ∀ (pts : List (ℝ × ℝ)),
    List.Chain' (fun p q : ℝ × ℝ => p.1 ≤ q.1 ∧ p.2 ≤ q.2) pts →
    ∀ (u v : ℝ), u ≤ v → interp_pairs u pts ≤ interp_pairs v pts
  | [], _, _, _, _ => le_refl 0
  | [(_, f0)], _, _, _, _ => le_refl f0
  | (x0, f0) :: (x1, f1) :: rest, hc, u, v, huv => by
      have hx01 : x0 ≤ x1 := (List.chain'_cons.mp hc).1.1
      have hf01 : f0 ≤ f1 := (List.chain'_cons.mp hc).1.2
      have htail := (List.chain'_cons.mp hc).2
      rw [interp_pairs, interp_pairs]
      by_cases hv1 : v < x1
      · have hu1 : u < x1 := lt_of_le_of_lt huv hv1
        rw [if_pos hv1, if_pos hu1]
        by_cases hv0 : v ≤ x0
        · rw [if_pos hv0, if_pos (le_trans huv hv0)]
        · push_neg at hv0
          rw [if_neg (not_le.mpr hv0)]
          by_cases hu0 : u ≤ x0
          · rw [if_pos hu0]
            have hd : (0:ℝ) < x1 - x0 := by linarith
            have hnn : 0 ≤ (v - x0) * (f1 - f0) / (x1 - x0) :=
              div_nonneg (mul_nonneg (by linarith) (by linarith)) hd.le
            linarith
          · push_neg at hu0
            rw [if_neg (not_le.mpr hu0)]
            have hd : (0:ℝ) < x1 - x0 := by linarith
            have hnum : (u - x0) * (f1 - f0) ≤ (v - x0) * (f1 - f0) :=
              mul_le_mul_of_nonneg_right (by linarith) (by linarith)
            have hinv : (0:ℝ) ≤ (x1 - x0)⁻¹ := inv_nonneg.mpr hd.le
            rw [div_eq_mul_inv, div_eq_mul_inv]
            exact add_le_add_left (mul_le_mul_of_nonneg_right hnum hinv) f0
      · push_neg at hv1
        rw [if_neg (not_lt.mpr hv1)]
        by_cases hu1 : u < x1
        · rw [if_pos hu1]
          have hsnd : List.Chain' (fun p q : ℝ × ℝ => p.2 ≤ q.2) ((x1, f1) :: rest) :=
            List.Chain'.imp (fun p q hh => hh.2) htail
          have hge : f1 ≤ interp_pairs v ((x1, f1) :: rest) :=
            interp_pairs_ge_head ((x1, f1) :: rest) hsnd (by simp) v hv1
          by_cases hu0 : u ≤ x0
          · rw [if_pos hu0]
            linarith
          · push_neg at hu0
            rw [if_neg (not_le.mpr hu0)]
            have hd : (0:ℝ) < x1 - x0 := by linarith
            have h1 : (u - x0) * (f1 - f0) ≤ (x1 - x0) * (f1 - f0) :=
              mul_le_mul_of_nonneg_right (by linarith) (by linarith)
            have h2 : (u - x0) * (f1 - f0) / (x1 - x0) ≤ f1 - f0 := by
              rw [div_le_iff hd]
              calc (u - x0) * (f1 - f0) ≤ (x1 - x0) * (f1 - f0) := h1
                _ = (f1 - f0) * (x1 - x0) := by ring
            linarith
        · push_neg at hu1
          rw [if_neg (not_lt.mpr hu1)]
          exact interp_pairs_mono ((x1, f1) :: rest) htail u v huv

lemma chain'_zip : ∀ (l1 l2 : List ℝ), List.Chain' (· ≤ ·) l1 → List.Chain' (· ≤ ·) l2 →
    List.Chain' (fun p q : ℝ × ℝ => p.1 ≤ q.1 ∧ p.2 ≤ q.2) (l1.zip l2)
  | [], _, _, _ => by simp
  | _ :: _, [], _, _ => by simp
  | [_], _ :: _, _, _ => by simp [List.zip_cons_cons]
  | _ :: _ :: _, [_], _, _ => by simp [List.zip_cons_cons]
  | a :: a2 :: t1, b :: b2 :: t2, h1, h2 => by
      rw [List.zip_cons_cons, List.zip_cons_cons, List.chain'_cons]
      refine ⟨⟨(List.chain'_cons.mp h1).1, (List.chain'_cons.mp h2).1⟩, ?_⟩
      rw [← List.zip_cons_cons]
      exact chain'_zip (a2 :: t1) (b2 :: t2) (List.chain'_cons.mp h1).2
        (List.chain'_cons.mp h2).2

lemma map_p_range_chain {M a : ℝ} (ha : 0 ≤ a) :
    List.Chain' (· ≤ ·) ((p_range M).map (fun p => expected_sqrt (p * a))) := by
  rw [List.chain'_map]
  have hchain := p_range_chain M
  rw [List.chain'_iff_get] at hchain ⊢
  intro i hi
  have h1 := hchain i hi
  have hm1 : (p_range M).get ⟨i, by omega⟩ ∈ p_range M := List.get_mem _ _ _
  have hm2 : (p_range M).get ⟨i + 1, by omega⟩ ∈ p_range M := List.get_mem _ _ _
  exact expected_sqrt_monotoneOn
    (Set.mem_Ici.mpr (mul_nonneg (p_range_nonneg hm1) ha))
    (Set.mem_Ici.mpr (mul_nonneg (p_range_nonneg hm2) ha))
    (mul_le_mul_of_nonneg_right h1 ha)

lemma ce_self_eq (xs : List ℝ) (a : ℝ) (ha : 0 < a) (hxs : ∀ t ∈ xs, 0 ≤ t)
    (hgrid : p_range ((xs.map (fun t => max t 0 ^ 2)).foldr max 0 / a) ≠ []) :
    ∃ X, ((p_range ((xs.map (fun t => max t 0 ^ 2)).foldr max 0 / a)).map
        (fun p => expected_sqrt (p * a))).getLast? = some X ∧
      convert_expectations xs a a = some (xs.map (fun t => min t X)) := by
  have hcl : ((xs.map (fun t => max t 0)).map (fun t => t ^ 2)) =
      xs.map (fun t => max t 0 ^ 2) := by
    rw [List.map_map]
    rfl
  set M : ℝ := (xs.map (fun t => max t 0 ^ 2)).foldr max 0 / a with hMdef
  set xp : List ℝ := (p_range M).map (fun p => expected_sqrt (p * a)) with hxpdef
  have hxpne : xp ≠ [] := by
    rw [hxpdef]
    exact fun h => hgrid (List.map_eq_nil_iff.mp h)
  have hhead0 : (p_range M).head? = some 0 := p_range_head hgrid
  have hxphead : xp.head? = some (expected_sqrt (0 * a)) := by
    rw [hxpdef, List.head?_map, hhead0]
    rfl
  have hheadval : xp.head hxpne = 0 := by
    have h1 : some (xp.head hxpne) = some (expected_sqrt (0 * a)) := by
      rw [← List.head?_eq_head hxpne, hxphead]
    have h2 := Option.some.inj h1
    rw [h2, zero_mul, expected_sqrt_zero]
  have hchain : List.Chain' (· ≤ ·) xp := by
    rw [hxpdef]
    exact map_p_range_chain ha.le
  refine ⟨xp.getLast hxpne, List.getLast?_eq_getLast _ hxpne, ?_⟩
  simp only [convert_expectations]
  rw [hcl, ← hMdef, if_neg hgrid, ← hxpdef, List.map_map]
  refine congrArg some (List.map_congr_left ?_)
  intro t ht
  show interp_pairs (max t 0) (xp.zip xp) = min t (xp.getLast hxpne)
  rw [max_eq_left (hxs t ht)]
  exact interp_pairs_self xp hchain hxpne t (by rw [hheadval]; exact hxs t ht)

/-- Claim C5 (corrected): for `b = a` `convert_expectations` is not the identity in
general.  On a nonnegative input list with a nonempty interpolation grid it computes
`x ↦ min(x, X)` where `X = xp[-1]` is the value of `expected_sqrt` at the largest grid
knot times `a`: every entry is reproduced exactly when it does not exceed `X`, and
entries above the top knot value are clamped down to `X` by `np.interp`. -/
theorem convert_expectations_self (xs : List ℝ) (a : ℝ) (ha : 0 < a)
    (hxs : ∀ t ∈ xs, 0 ≤ t)
    (hgrid : p_range ((xs.map (fun t => max t 0 ^ 2)).foldr max 0 / a) ≠ []) :
    ∃ X, ((p_range ((xs.map (fun t => max t 0 ^ 2)).foldr max 0 / a)).map
        (fun p => expected_sqrt (p * a))).getLast? = some X ∧
      convert_expectations xs a a = some (xs.map (fun t => min t X)) :=
  ce_self_eq xs a ha hxs hgrid

/-- Claim C5, witness: for the input `[2]` with `a = b = 1` the hypotheses hold and
`convert_expectations` returns `[min 2 X]` for the top knot value `X`. -/
theorem convert_expectations_self_witness :
    (0:ℝ) < 1 ∧ (∀ t ∈ [(2:ℝ)], 0 ≤ t) ∧
      p_range (([(2:ℝ)].map (fun t => max t 0 ^ 2)).foldr max 0 / 1) ≠ [] ∧
      ∃ X, ((p_range (([(2:ℝ)].map (fun t => max t 0 ^ 2)).foldr max 0 / 1)).map
          (fun p => expected_sqrt (p * 1))).getLast? = some X ∧
        convert_expectations [(2:ℝ)] 1 1 = some ([(2:ℝ)].map (fun t => min t X)) := by
  have h1 : (0:ℝ) < 1 := by norm_num
  have h2 : ∀ t ∈ [(2:ℝ)], 0 ≤ t := by
    intro t ht
    fin_cases ht
    norm_num
  have hM : (([(2:ℝ)].map (fun t => max t 0 ^ 2)).foldr max 0) / 1 = 4 := by
    simp only [List.map_cons, List.map_nil, List.foldr_cons, List.foldr_nil]
    rw [max_eq_left (by norm_num : (0:ℝ) ≤ 2),
      (by norm_num : ((2:ℝ)) ^ 2 = 4),
      max_eq_left (by norm_num : (0:ℝ) ≤ 4)]
    norm_num
  have h3 : p_range (([(2:ℝ)].map (fun t => max t 0 ^ 2)).foldr max 0 / 1) ≠ [] := by
    rw [hM]
    exact p_range_ne_nil (by norm_num)
  exact ⟨h1, h2, h3, convert_expectations_self [(2:ℝ)] 1 h1 h2 h3⟩

/-- Claim C8: `convert_expectations` is monotone.  For nonnegative scaling factors,
whenever the call succeeds and two input entries satisfy `xs[i] < xs[j]`, the
corresponding output entries satisfy `out[i] ≤ out[j]`: the clamp `max · 0` is
monotone and `np.interp` through the monotone knot lists `xp`, `fp` (both images of
the increasing grid under the monotone `expected_sqrt`) is monotone. -/
theorem convert_expectations_monotone (xs : List ℝ) (a b : ℝ)
    (ha : 0 ≤ a) (hb : 0 ≤ b) (out : List ℝ)
    (hout : convert_expectations xs a b = some out)
    (i j : ℕ) (hi : i < xs.length) (hj : j < xs.length)
    (hij : xs.get ⟨i, hi⟩ < xs.get ⟨j, hj⟩) :
    ∃ (hi' : i < out.length) (hj' : j < out.length),
      out.get ⟨i, hi'⟩ ≤ out.get ⟨j, hj'⟩ := by
  simp only [convert_expectations] at hout
  by_cases hg : p_range (((xs.map (fun t => max t 0)).map
      (fun t => t ^ 2)).foldr max 0 / a) = []
  · rw [if_pos hg] at hout
    cases hout
  · rw [if_neg hg] at hout
    have hh := Option.some.inj hout
    subst hh
    have hi' : i < ((xs.map (fun t => max t 0)).map (fun t => interp_pairs t
        ((((p_range (((xs.map (fun t => max t 0)).map (fun t => t ^ 2)).foldr max 0
          / a)).map (fun p => expected_sqrt (p * a))).zip
         ((p_range (((xs.map (fun t => max t 0)).map (fun t => t ^ 2)).foldr max 0
          / a)).map (fun p => expected_sqrt (p * b))))))).length := by
      simpa using hi
    have hj' : j < ((xs.map (fun t => max t 0)).map (fun t => interp_pairs t
        ((((p_range (((xs.map (fun t => max t 0)).map (fun t => t ^ 2)).foldr max 0
          / a)).map (fun p => expected_sqrt (p * a))).zip
         ((p_range (((xs.map (fun t => max t 0)).map (fun t => t ^ 2)).foldr max 0
          / a)).map (fun p => expected_sqrt (p * b))))))).length := by
      simpa using hj
    refine ⟨hi', hj', ?_⟩
    rw [List.get_map, List.get_map, List.get_map, List.get_map]
    exact interp_pairs_mono _
      (chain'_zip _ _ (map_p_range_chain ha) (map_p_range_chain hb)) _ _
      (max_le_max hij.le le_rfl)

/-- Claim C8, witness: for the input `[1, 2]` with `a = b = 1` the call succeeds and
the output entries are in the same order as the input entries `1 < 2`. -/
theorem convert_expectations_monotone_witness :
    (0:ℝ) ≤ 1 ∧ ∃ out : List ℝ, convert_expectations [(1:ℝ), 2] 1 1 = some out ∧
      ∃ (hi : 0 < out.length) (hj : 1 < out.length),
        out.get ⟨0, hi⟩ ≤ out.get ⟨1, hj⟩ := by
  have hM : (([(1:ℝ), 2].map (fun t => max t 0 ^ 2)).foldr max 0) / 1 = 4 := by
    simp only [List.map_cons, List.map_nil, List.foldr_cons, List.foldr_nil]
    rw [max_eq_left (by norm_num : (0:ℝ) ≤ 1), max_eq_left (by norm_num : (0:ℝ) ≤ 2),
      (by norm_num : ((1:ℝ)) ^ 2 = 1), (by norm_num : ((2:ℝ)) ^ 2 = 4),
      max_eq_left (by norm_num : (0:ℝ) ≤ 4),
      max_eq_right (by norm_num : (1:ℝ) ≤ 4)]
    norm_num
  have hgr : p_range (([(1:ℝ), 2].map (fun t => max t 0 ^ 2)).foldr max 0 / 1) ≠ [] := by
    rw [hM]
    exact p_range_ne_nil (by norm_num)
  obtain ⟨X, _, hres⟩ := ce_self_eq [(1:ℝ), 2] 1 (by norm_num)
    (by intro t ht; fin_cases ht <;> norm_num) hgr
  refine ⟨by norm_num, [(1:ℝ), 2].map (fun t => min t X), hres, ?_⟩
  exact convert_expectations_monotone [(1:ℝ), 2] 1 1 (by norm_num) (by norm_num)
    ([(1:ℝ), 2].map (fun t => min t X)) hres 0 1 (by simp) (by simp)
    (show (1:ℝ) < 2 by norm_num)
